import Mathlib

/-!
# HDLLoop — verification of the natural-language specification against the code

This file gives a shallow embedding, in Lean 4, of the parts of the HDLLoop
repository that the specification's claims are about:

* `OptimizedHdlWriter._parse_file_blocks` / `write_from_agent_response`
  (src/OptimizedHdlWriter.py) — the HDL file-block extractor and the
  run-directory materializer;
* `MatlabAgent._process_llm_chunk` and `MatlabAgent.astream_run`
  (src/hdlagent.py) — the event-streaming adapter and flow selection;
* `VivadoResourceReportParser` (src/app/modules/hdl/vivado_resource_parser.py)
  and the two `ResourceUtilizationRunner`s (src/ResourceUtilizationTool.py,
  src/app/modules/hdl/resource_utilization_runner.py);
* the five-stage LangGraph pipeline (src/hdl_flow.py).

Python strings are modelled as `List Char`; Python `None`-able values as
`Option`; raised exceptions as `Except`; filesystem and external-process
activity as an explicit effect trace.  All definitions are executable so that
theorems about concrete inputs can be settled by `decide` / `rfl`.
-/

namespace HDLLoop

/-! ## Python string primitives

`isPySpace` is the character class of Python's `str.strip()` (equivalently of
`\s` in a Python 3 `str` regex): the Unicode whitespace characters.
`isLineBreak` is the set of line boundaries of Python's `str.splitlines()`.
-/

def isPySpace (c : Char) : Bool :=
  let n := c.toNat
  n = 0x20 || n = 0x09 || n = 0x0a || n = 0x0d || n = 0x0b || n = 0x0c ||
  (0x1c ≤ n && n ≤ 0x1f) || n = 0x85 || n = 0xa0 || n = 0x1680 ||
  (0x2000 ≤ n && n ≤ 0x200a) || n = 0x2028 || n = 0x2029 || n = 0x202f ||
  n = 0x205f || n = 0x3000

def isLineBreak (c : Char) : Bool :=
  let n := c.toNat
  n = 0x0a || n = 0x0d || n = 0x0b || n = 0x0c || n = 0x1c || n = 0x1d ||
  n = 0x1e || n = 0x85 || n = 0x2028 || n = 0x2029

/-- Left strip: `str.lstrip()` on the Python whitespace class. -/
def lstrip (l : List Char) : List Char := l.dropWhile isPySpace

/-- Right strip: `str.rstrip()` on the Python whitespace class. -/
def rstrip : List Char → List Char
  | [] => []
  | c :: t =>
    match rstrip t with
    | [] => if isPySpace c then [] else [c]
    | r => c :: r

/-- `str.strip()`. -/
def pyStrip (l : List Char) : List Char := rstrip (lstrip l)

/-- `str.splitlines()` treats `\r\n` as a single boundary; we first rewrite
`\r\n` and a lone `\r` to `\n`, then split on single break characters. -/
def normNewlines : List Char → List Char
  | '\r' :: '\n' :: rest => '\n' :: normNewlines rest
  | '\r' :: rest => '\n' :: normNewlines rest
  | c :: rest => c :: normNewlines rest
  | [] => []

def splitlinesGo : List Char → List Char → List (List Char)
  | [], acc => if acc.isEmpty then [] else [acc.reverse]
  | c :: rest, acc =>
    if isLineBreak c then acc.reverse :: splitlinesGo rest []
    else splitlinesGo rest (c :: acc)

/-- `str.splitlines()`: no trailing empty line for a trailing terminator,
`""` gives `[]`, `"\n"` gives `[""]`. -/
def pySplitlines (l : List Char) : List (List Char) :=
  splitlinesGo (normNewlines l) []

/-- `"\n".join(lines)`. -/
def joinNL : List (List Char) → List Char
  | [] => []
  | [l] => l
  | l :: ls => l ++ '\n' :: joinNL ls

/-- `needle.isPrefixOf hay`, case sensitive, on characters. -/
def chStartsWith : List Char → List Char → Bool
  | [], _ => true
  | _ :: _, [] => false
  | a :: as, b :: bs => a = b && chStartsWith as bs

/-- Case-insensitive (ASCII) prefix test, for `re.IGNORECASE` literals. -/
def chStartsWithCI : List Char → List Char → Bool
  | [], _ => true
  | _ :: _, [] => false
  | a :: as, b :: bs => a.toLower = b.toLower && chStartsWithCI as bs

/-- Python's `needle in hay` substring test. -/
def chContains : List Char → List Char → Bool
  | [], needle => needle.isEmpty
  | h :: t, needle => chStartsWith needle (h :: t) || chContains t needle

/-! ## The HDL file-block extractor — `OptimizedHdlWriter._parse_file_blocks`

The Python code matches fenced regions with
`re.compile(r"```(?:verilog|systemverilog|vhdl)?\s*(.*?)```", re.DOTALL | re.IGNORECASE)`
via `findall`, and inside each region matches stripped lines against
`re.compile(r"^(?://|--)\s*File:\s*(.+)$", re.IGNORECASE)`.

The fence regex is deterministic: the optional language tag is a literal
alternation whose branches cannot begin a closing fence, `\s*` is a maximal
whitespace run that cannot contain a backtick, and the lazy `(.*?)` stops at
the first closing ` ``` `.  `findall` scans left to right, resuming after a
match's end, or one character later after a failed attempt.
-/

/-- `l` begins with three backticks. -/
def startsTripleTick : List Char → Bool
  | a :: b :: c :: _ => a = '`' && b = '`' && c = '`'
  | _ => false

/-- `l` contains three consecutive backticks somewhere. -/
def hasTripleTick : List Char → Bool
  | [] => false
  | a :: t => startsTripleTick (a :: t) || hasTripleTick t

/-- Consume the optional case-insensitive language tag
`(?:verilog|systemverilog|vhdl)?` (a plain literal match, no word boundary). -/
def dropLangTag (l : List Char) : List Char :=
  if chStartsWithCI ("verilog").data l then l.drop 7
  else if chStartsWithCI ("systemverilog").data l then l.drop 13
  else if chStartsWithCI ("vhdl").data l then l.drop 4
  else l

/-- Split `l` at the first occurrence of three consecutive backticks:
returns the part before it and the part after it (the backticks removed),
or `none` when there is no closing fence. -/
def splitAtFence : List Char → Option (List Char × List Char)
  | [] => none
  | c :: rest =>
    if startsTripleTick (c :: rest) then some ([], rest.drop 2)
    else
      match splitAtFence rest with
      | some (cap, r) => some (c :: cap, r)
      | none => none

/-- `findall` of the fence pattern: every captured group, in order.
Fuel-driven so that the recursion is structural; `fuel = l.length` always
suffices because each step consumes at least one character. -/
def findFenceCaptures : Nat → List Char → List (List Char)
  | 0, _ => []
  | _ + 1, [] => []
  | fuel + 1, c :: rest =>
    if startsTripleTick (c :: rest) then
      match splitAtFence ((dropLangTag ((c :: rest).drop 3)).dropWhile isPySpace) with
      | some (cap, rest2) => cap :: findFenceCaptures fuel rest2
      | none => findFenceCaptures fuel rest
    else findFenceCaptures fuel rest

def fenceCaptures (l : List Char) : List (List Char) :=
  findFenceCaptures l.length l

/-- Match `^(?://|--)\s*File:\s*(.+)$` (IGNORECASE) against a stripped line,
then apply the Python post-processing
`file_part = m.group(1).strip()` and, when a parenthesis is present,
`file_part.split("(", 1)[0].strip()`.  Returns the resulting filename
(possibly empty) when the regex matches, `none` otherwise. -/
def headerFilename (s : List Char) : Option (List Char) :=
  let afterComment :=
    if chStartsWith ("//").data s then some (s.drop 2)
    else if chStartsWith ("--").data s then some (s.drop 2)
    else none
  match afterComment with
  | none => none
  | some r1 =>
    let r2 := r1.dropWhile isPySpace
    if chStartsWithCI ("file:").data r2 then
      let r := r2.drop 5
      if r.isEmpty then none
      else
        -- `\s*(.+)$` with a greedy `\s*`: the group starts after the maximal
        -- whitespace run, except that when the rest is all whitespace the
        -- group backtracks to the final character (which then strips to "").
        let g := if (r.dropWhile isPySpace).isEmpty then []
                 else pyStrip (r.dropWhile isPySpace)
        let fn := if g.contains '(' then pyStrip (g.takeWhile (· ≠ '(')) else g
        some fn
    else none

/-- The first line of the region whose stripped form matches the header
pattern fixes the filename (Python keeps searching only while
`filename is None`, so even an empty match result stops the search). -/
def firstHeaderResult (lines : List (List Char)) : Option (List Char) :=
  lines.findSome? (fun line => headerFilename (pyStrip line))

/-- Process one fenced region: all lines are retained, the code is
`"\n".join(lines).strip() + "\n"`, and the region contributes a pair exactly
when the found filename is non-empty (`if filename:`). -/
def processBlock (b : List Char) : Option (List Char × List Char) :=
  (firstHeaderResult (pySplitlines b)).bind (fun fn =>
    if fn = [] then none
    else some (fn, pyStrip (joinNL (pySplitlines b)) ++ ['\n']))

/-- One insertion into a Python `dict` modelled as an association list:
an existing key keeps its position and takes the new value, a new key is
appended. -/
def dictInsert : List (List Char × List Char) → List Char → List Char →
    List (List Char × List Char)
  | [], k, v => [(k, v)]
  | (k', v') :: rest, k, v =>
    if k' = k then (k', v) :: rest else (k', v') :: dictInsert rest k v

/-- The filename/content pairs of all fenced regions with a recognized,
non-empty filename header, in textual order (before dict collapsing). -/
def blockPairs (text : List Char) : List (List Char × List Char) :=
  (fenceCaptures text).filterMap processBlock

/-- `OptimizedHdlWriter._parse_file_blocks`. -/
def parseFileBlocks (text : List Char) : List (List Char × List Char) :=
  (blockPairs text).foldl (fun d p => dictInsert d p.1 p.2) []

/-- Lookup in the association-list dict. -/
def dictGet (d : List (List Char × List Char)) (k : List Char) :
    Option (List Char) :=
  (d.find? (fun p => p.1 = k)).map (·.2)

/-! ## The run-directory materializer — `OptimizedHdlWriter.write_from_agent_response`

The writer is modelled purely: an original file is a `(name, content?)` pair
where `none` stands for a file whose copy fails with `OSError` (and is
silently skipped), the per-run directory is flat (every destination path is
`run_dir / name`), and all filesystem activity is recorded in an effect
trace.  The caller has already normalized the agent response to plain text
(`_extract_text` is the identity on strings).
-/

/-- Exact text of the `ValueError` raised when no file blocks are found. -/
def noBlocksMsg : List Char :=
  ("OptimizedHdlWriter: No optimized HDL file blocks found in the agent response. Make sure each changed file is emitted as:\n  ```vhdl\n  -- File: <name>.vhd (UPDATED)\n  <code>\n  ```\nor\n  ```verilog\n  // File: <name>.v (UPDATED)\n  <code>\n  ```").data

inductive FsEffect where
  | mkdirRunDir
  | copyFile (name : List Char) (content : List Char)
  | writeFile (name : List Char) (content : List Char)
  deriving DecidableEq, Repr

structure WriterResult where
  allPaths : List (List Char)
  changedFiles : List (List Char)
  deriving DecidableEq, Repr

structure WriterOutput where
  result : Except (List Char) WriterResult
  effects : List FsEffect
  dirContents : List (List Char × List Char)
  deriving Repr

/-- `_copy_original_files`: copies that succeed, in order (duplicates kept in
the returned path list; on disk a later copy of the same name wins). -/
def copiedFiles (originals : List (List Char × Option (List Char))) :
    List (List Char × List Char) :=
  originals.filterMap (fun p => p.2.map (fun c => (p.1, c)))

/-- The `all_paths` accumulation: start from the copied paths and append each
written filename that is not already present. -/
def accAllPaths (copiedNames : List (List Char))
    (blocks : List (List Char × List Char)) : List (List Char) :=
  blocks.foldl (fun acc p => if p.1 ∈ acc then acc else acc ++ [p.1]) copiedNames

/-- `OptimizedHdlWriter.write_from_agent_response agent_response original_paths`:
creates the run directory, copies the originals, parses the response, raises
when no blocks were found, otherwise writes every block. -/
def writeFromAgentResponse (originals : List (List Char × Option (List Char)))
    (text : List Char) : WriterOutput :=
  let copied := copiedFiles originals
  let copyEffects := copied.map (fun p => FsEffect.copyFile p.1 p.2)
  let copiedStore := copied.foldl (fun d p => dictInsert d p.1 p.2) []
  let blocks := parseFileBlocks text
  if blocks.isEmpty then
    { result := .error noBlocksMsg
      effects := FsEffect.mkdirRunDir :: copyEffects
      dirContents := copiedStore }
  else
    { result := .ok { allPaths := accAllPaths (copied.map (·.1)) blocks
                      changedFiles := blocks.map (·.1) }
      effects := FsEffect.mkdirRunDir :: copyEffects ++
        blocks.map (fun p => FsEffect.writeFile p.1 p.2)
      dirContents := blocks.foldl (fun d p => dictInsert d p.1 p.2) copiedStore }

/-! ## The event-streaming adapter — `MatlabAgent._process_llm_chunk`
(src/hdlagent.py)

A streamed chunk's `content` is a string, a list of typed parts, or anything
else; a `reasoning` part carries a `summary` list of items, each item a dict
that may carry `text` and `index` (`index` defaults to 0). -/

inductive SummaryItem where
  /-- A summary dict with a `"text"` key; `index` is `item.get("index", 0)`. -/
  | item (index : Nat) (text : List Char)
  /-- A non-dict entry, or a dict without `"text"` (skipped). -/
  | noText
  deriving DecidableEq, Repr

inductive ChunkPart where
  | reasoning (summary : List SummaryItem)
  /-- A reasoning part whose `summary` is not a list (skipped entirely). -/
  | reasoningNonList
  | textPart (text : List Char)
  /-- A dict part with any other `type`, or a non-dict part. -/
  | otherPart
  deriving DecidableEq, Repr

inductive ChunkContent where
  | str (s : List Char)
  | parts (l : List ChunkPart)
  /-- Content that is neither a string nor a list: nothing is emitted. -/
  | other
  deriving DecidableEq, Repr

inductive EvKind where
  | think
  | text
  deriving DecidableEq, Repr

/-- The inner loop over a reasoning part's summary items. -/
def processSummary : List SummaryItem → Nat →
    List (EvKind × List Char) × Nat
  | [], cur => ([], cur)
  | .noText :: rest, cur => processSummary rest cur
  | .item idx t :: rest, cur =>
    if cur < idx then
      let r := processSummary rest idx
      ((.think, ('\n' :: ['\n'])) :: (.think, t) :: r.1, r.2)
    else
      let r := processSummary rest cur
      ((.think, t) :: r.1, r.2)

/-- The loop over a chunk's parts. -/
def processParts : List ChunkPart → Nat → List (EvKind × List Char) × Nat
  | [], cur => ([], cur)
  | .reasoning summary :: rest, cur =>
    let s := processSummary summary cur
    let r := processParts rest s.2
    (s.1 ++ r.1, r.2)
  | .reasoningNonList :: rest, cur => processParts rest cur
  | .textPart t :: rest, cur =>
    let r := processParts rest cur
    ((if t.isEmpty then [] else [(.text, t)]) ++ r.1, r.2)
  | .otherPart :: rest, cur => processParts rest cur

/-- `MatlabAgent._process_llm_chunk` (src/hdlagent.py:370-408): convert one
chunk into `(kind, text)` events plus the updated reasoning index. -/
def processLLMChunk (content : ChunkContent) (currentIdx : Nat) :
    List (EvKind × List Char) × Nat :=
  match content with
  | .parts l => processParts l currentIdx
  | .str s => ((if s.isEmpty then [] else [(.text, s)]), currentIdx)
  | .other => ([], currentIdx)

/-- Fold `_process_llm_chunk` over a stream of chunks, as `_stream_llm` and
`_run_full_graph_flow` do (both start with `current_thought_idx = 0`). -/
def processChunks : List ChunkContent → Nat → List (EvKind × List Char)
  | [], _ => []
  | c :: rest, cur =>
    let r := processLLMChunk c cur
    r.1 ++ processChunks rest r.2

/-- Concatenation of all emitted `("think", _)` texts. -/
def thinkConcat (evs : List (EvKind × List Char)) : List Char :=
  (evs.filterMap (fun e => if e.1 = EvKind.think then some e.2 else none)).flatten

/-! ## Flow selection — `MatlabAgent.astream_run` (src/hdlagent.py:77-103)

`astream_run` dispatches on `file_paths`: `if not file_paths` (absent or
empty) the no-files flow streams the LLM directly; otherwise the paths that
exist on disk are kept, and if none exists the missing-files flow streams
directly; otherwise the five-stage graph runs on exactly the existing
subset.  Disk existence is a parameter. -/

inductive AgentFlow where
  /-- `_run_no_files_flow`: direct LLM streaming, no pipeline. -/
  | noFiles
  /-- `_run_missing_files_flow paths`: direct LLM streaming, no pipeline. -/
  | missingFiles (paths : List (List Char))
  /-- `_run_full_graph_flow`: the five-stage pipeline on `existing`. -/
  | fullGraph (existing : List (List Char))
  deriving DecidableEq, Repr

def astreamRunFlow (filePaths : Option (List (List Char)))
    (existsOnDisk : List Char → Bool) : AgentFlow :=
  match filePaths with
  | none => .noFiles
  | some ps =>
    if ps.isEmpty then .noFiles
    else
      let existing := ps.filter existsOnDisk
      if existing.isEmpty then .missingFiles ps
      else .fullGraph existing

/-! ## The Vivado utilization-report parser
(src/app/modules/hdl/vivado_resource_parser.py)

`_extract_used` scans report lines for a table row whose first cell equals
the label and parses the second cell as an integer after removing
underscores; `parse` reads the report, extracts the device and the five
labelled rows, and constructs an
`app.modules.hdl.resource_report.ResourceReport`.

That dataclass declares only the fields `tool`, `target`, `lut`, `dsp`,
`bram`; `parse` nevertheless passes the keyword arguments `ff`, `uram` and
`fmax_mhz`, which Python rejects with a `TypeError` before any report object
is created.  The keyword-argument check is modelled explicitly. -/

/-- Python `int(s)` on an already-stripped string: an optional sign followed
by at least one ASCII digit (the report cells contain nothing more exotic;
underscores have been removed before the call). -/
def pyInt (s : List Char) : Option Int :=
  let core : List Char → Option Nat := fun ds =>
    if ds.isEmpty || !ds.all (·.isDigit) then none
    else some (ds.foldl (fun n d => n * 10 + (d.toNat - 48)) 0)
  match s with
  | '-' :: ds => (core ds).map (fun n => -(n : Int))
  | '+' :: ds => (core ds).map (fun n => (n : Int))
  | ds => (core ds).map (fun n => (n : Int))

/-- `line.split("|")` (keeping empty cells, as Python `str.split` does). -/
def splitPipeGo : List Char → List Char → List (List Char)
  | [], acc => [acc.reverse]
  | c :: rest, acc =>
    if c = '|' then acc.reverse :: splitPipeGo rest []
    else splitPipeGo rest (c :: acc)

def splitPipe (l : List Char) : List (List Char) := splitPipeGo l []

/-- `VivadoResourceReportParser._extract_used lines label`. -/
def extractUsed (lines : List (List Char)) (label : List Char) : Option Int :=
  match lines with
  | [] => none
  | line :: rest =>
    let stripped := pyStrip line
    if !chStartsWith (("|").data) stripped then extractUsed rest label
    else if !chContains line (('|' :: ' ' :: label)) then extractUsed rest label
    else
      let parts := (splitPipe line).drop 1 |>.dropLast
      let cells := parts.map pyStrip
      match cells with
      | [] => extractUsed rest label
      | rowLabel :: others =>
        if rowLabel ≠ label then extractUsed rest label
        else
          match others with
          | [] => none
          | used :: _ => pyInt (pyStrip (used.filter (· ≠ '_')))

/-- `VivadoResourceReportParser._parse_device`. -/
def parseDevice (lines : List (List Char)) : Option (List Char) :=
  match lines with
  | [] => none
  | line :: rest =>
    let stripped := pyStrip line
    if chStartsWith ("| Device").data stripped then
      if stripped.contains ':' then
        some (pyStrip ((stripped.dropWhile (· ≠ ':')).drop 1))
      else parseDevice rest
    else parseDevice rest

/-- `app.modules.hdl.resource_report.ResourceReport`: the fields the
dataclass actually declares. -/
structure AppResourceReport where
  tool : List Char
  target : List Char
  lut : Option Int := none
  dsp : Option Int := none
  bram : Option Int := none
  deriving DecidableEq, Repr

def appResourceReportFields : List (List Char) :=
  [("tool").data, ("target").data, ("lut").data, ("dsp").data, ("bram").data]

/-- The keyword arguments `parse` passes to the `ResourceReport` constructor. -/
def vivadoParseKwargs : List (List Char) :=
  [("tool").data, ("target").data, ("lut").data, ("ff").data, ("dsp").data,
   ("bram").data, ("uram").data, ("fmax_mhz").data]

/-- `VivadoResourceReportParser.parse` on the report text.  The metric
extraction runs first; the dataclass call then checks the keyword arguments
against the declared fields and raises `TypeError` at the first unexpected
one — which always happens, because `ff`, `uram` and `fmax_mhz` are not
fields of the imported `ResourceReport`. -/
def vivadoParserParse (text : List Char) : Except (List Char) AppResourceReport :=
  let lines := pySplitlines text
  let target := (parseDevice lines).getD (("unknown").data)
  let lut := extractUsed lines ("Slice LUTs*").data
  let dsp := extractUsed lines ("DSPs").data
  let bram := extractUsed lines ("Block RAM Tile").data
  match vivadoParseKwargs.find? (fun k => !appResourceReportFields.contains k) with
  | some k =>
    .error (("TypeError: ResourceReport.__init__() got an unexpected keyword argument ").data ++
      Char.ofNat 39 :: k ++ [Char.ofNat 39])
  | none =>
    .ok { tool := ("vivado").data, target := target, lut := lut, dsp := dsp,
          bram := bram }

/-! ## The two resource-utilization runners -/

/-- `src/ResourceUtilizationTool.ResourceReport` (the stub-side dataclass,
which does declare `ff`, `uram`, `fmax_mhz`, `extra`).  `fmax_mhz` is a
Python float carrying the value 180.0 in the stub; it is modelled as an
integer number of MHz since no claim inspects fractional values. -/
structure StubResourceReport where
  tool : List Char
  target : List Char
  lut : Option Int := none
  ff : Option Int := none
  dsp : Option Int := none
  bram : Option Int := none
  uram : Option Int := none
  fmaxMhz : Option Int := none
  deriving DecidableEq, Repr

/-- `ResourceUtilizationRunner.run` from src/ResourceUtilizationTool.py: a
stub that performs no validation and no I/O and always returns the fixed
dummy report for the configured target.  It never raises. -/
def stubResourceRun (target : List Char) (_filePaths : List (List Char))
    (_topName : List Char) : StubResourceReport :=
  { tool := ("HDL_TOOL_STUB").data
    target := target
    lut := some 1234
    ff := some 2345
    dsp := some 10
    bram := some 3
    fmaxMhz := some 180 }

/-- Effects of the real Vivado runner, in program order. -/
inductive VivadoEffect where
  | mkdirProjectDir
  | writeRunTcl
  | runVivadoBatch
  | sleepPostRun
  | readReport
  deriving DecidableEq, Repr

/-- Externally determined outcomes for one real-runner invocation. -/
structure VivadoWorld where
  /-- Exit code of the Vivado batch process. -/
  exitCode : Int
  /-- The report file's text, `none` when it does not exist. -/
  reportText : Option (List Char)

/-- `ResourceUtilizationRunner.run_for_files` from
src/app/modules/hdl/resource_utilization_runner.py: validates non-emptiness
before creating the project directory, then creates the project, writes
run.tcl, runs Vivado in batch mode (non-zero exit is fatal), sleeps, locates
the report (missing file is fatal) and parses it. -/
def runForFiles (w : VivadoWorld) (hdlFiles : List (List Char))
    (_topModule : List Char) :
    Except (List Char) AppResourceReport × List VivadoEffect :=
  if hdlFiles.isEmpty then
    (.error ("No HDL files provided to ResourceUtilizationRunner").data, [])
  else
    let pre := [VivadoEffect.mkdirProjectDir, VivadoEffect.writeRunTcl,
                VivadoEffect.runVivadoBatch]
    if w.exitCode ≠ 0 then
      (.error ("Vivado batch run failed (non-zero exit code). Check STDOUT/STDERR above.").data, pre)
    else
      match w.reportText with
      | none =>
        (.error ("Utilization report not found at expected path").data,
         pre ++ [VivadoEffect.sleepPostRun])
      | some text =>
        (vivadoParserParse text,
         pre ++ [VivadoEffect.sleepPostRun, VivadoEffect.readReport])

/-! ## The five-stage pipeline — `build_hdl_optimization_graph` (src/hdl_flow.py)

The compiled LangGraph is strictly linear:
`resource_init → agent → apply_optimized_hdl → compile_check →
resource_final → END`, with each node's partial return merged into the
shared state.  The state is modelled as a record of optional keys (a key is
`none` while no node has produced it); a raising node aborts the run
(`Except`).  External collaborators are parameters: `resourceRun` stands for
`resource_runner.run`, `compileRun` for `compile_runner.run`, `readFile` for
reading one HDL file from disk, and `llmResponse` for the agent LLM call. -/

inductive PMessage where
  | system (content : List Char)
  | human (content : List Char)
  | ai (content : List Char)
  deriving DecidableEq, Repr

structure PState where
  hdl_paths : List (List Char)
  query : List Char
  chat_history : List PMessage
  system_prompt : List Char
  top_name : Option (List Char) := none
  hdl_bundle : Option (List Char) := none
  base_summary : Option (List Char) := none
  messages : Option (List PMessage) := none
  agent_response : Option (List Char) := none
  optimized_hdl_paths : Option (List (List Char)) := none
  optimized_files : Option (List (List Char)) := none
  resource_report : Option StubResourceReport := none
  compile_ok : Option Bool := none
  compile_errors : Option (Option (List Char)) := none
  final_summary : Option (List Char) := none
  summary_text : Option (List Char) := none
  deriving Repr

/-- The initial state `_run_full_graph_flow` passes to the graph: only the
four input keys are set. -/
def initFullGraphState (hdlPaths : List (List Char)) (query : List Char)
    (chatHistory : List PMessage) (systemPrompt : List Char) : PState :=
  { hdl_paths := hdlPaths, query := query, chat_history := chatHistory,
    system_prompt := systemPrompt }

/-- `Path(p).name`: the final path component. -/
def pathName (p : List Char) : List Char :=
  (p.reverse.takeWhile (· ≠ '/')).reverse

/-- `Path(p).stem`: the final component without its last suffix (a dot as
the leading character of the name, or a trailing dot, starts no suffix). -/
def pathStem (p : List Char) : List Char :=
  let base := pathName p
  let revAfter := base.reverse.takeWhile (· ≠ '.')
  if revAfter.length = base.length then base
  else
    let i := base.length - revAfter.length - 1
    if 0 < i then
      if i + 1 < base.length then base.take i else base
    else base

/-- Decimal digits of a natural number (fuel-driven, structural). -/
def natChars : Nat → Nat → List Char
  | 0, _ => []
  | fuel + 1, n =>
    if n < 10 then [Char.ofNat (48 + n)]
    else natChars fuel (n / 10) ++ [Char.ofNat (48 + n % 10)]

def natStr (n : Nat) : List Char := natChars (n + 1) n

def intStr (i : Int) : List Char :=
  if i < 0 then '-' :: natStr i.natAbs else natStr i.natAbs

/-- `ResourceReport.to_human_summary` from src/ResourceUtilizationTool.py.
`fmax_mhz` is rendered `f"{v:.1f}"`; with the integral model this is the
digits followed by `.0` (the stub's value is the whole number 180.0). -/
def stubHumanSummary (r : StubResourceReport) : List Char :=
  let parts :=
    (match r.lut with
     | some v => [("LUTs: ").data ++ intStr v]
     | none => []) ++
    (match r.ff with
     | some v => [("FFs: ").data ++ intStr v]
     | none => []) ++
    (match r.dsp with
     | some v => [("DSPs: ").data ++ intStr v]
     | none => []) ++
    (match r.bram with
     | some v => [("BRAMs: ").data ++ intStr v]
     | none => []) ++
    (match r.fmaxMhz with
     | some v => [("Fmax: ").data ++ intStr v ++ (".0 MHz").data]
     | none => [])
  if parts.isEmpty then ("No metrics available.").data
  else List.intercalate ((", ").data) parts

/-- `_build_hdl_bundle`: every file preceded by a `// File:` marker and the
parts joined with a blank line; a read failure is replaced by a marker line
(the Python marker interpolates the exception text, not tracked here). -/
def buildHdlBundle (readFile : List Char → Option (List Char))
    (hdlPaths : List (List Char)) : List Char :=
  List.intercalate (('\n' :: ['\n']))
    (hdlPaths.map (fun p =>
      match readFile p with
      | some code =>
        ("// File: ").data ++ pathName p ++ '\n' :: (code ++ ['\n'])
      | none =>
        ("// File: ").data ++ pathName p ++ (" (FAILED TO READ)").data ++ ['\n']))

/-- `_format_design_prompt` (the exact f-string template of src/hdl_flow.py). -/
def formatDesignPrompt (query topName baseSummary hdlBundle : List Char) :
    List Char :=
  ("\n        You are given an HDL design that spans multiple files (top module, submodules, packages).\n        Optimize it according to the user goal while respecting the optimization rules from the system prompt.\n\n        Top-level module name (heuristic): ").data ++
  topName ++
  ("\n\n        Resource utilization BEFORE optimization:\n        ").data ++
  baseSummary ++
  ("\n\n        HDL design (all files bundled):\n        ```verilog\n            ").data ++
  hdlBundle ++
  ("\n        ```\n        User goal / request:\n        ").data ++
  query ++
  ("\n    ").data

/-- `resource_init_node`. -/
def resourceInitNode
    (resourceRun : List (List Char) → List Char →
      Except (List Char) StubResourceReport)
    (readFile : List Char → Option (List Char)) (s : PState) :
    Except (List Char) PState :=
  match s.hdl_paths with
  | [] => .error ("resource_init_node: no HDL paths provided").data
  | p :: _ =>
    let topName := pathStem p
    let bundle := buildHdlBundle readFile s.hdl_paths
    match resourceRun s.hdl_paths topName with
    | .error e => .error e
    | .ok rep =>
      let baseSummary := stubHumanSummary rep
      .ok { s with
        top_name := some topName
        hdl_bundle := some bundle
        base_summary := some baseSummary
        messages := some
          (PMessage.system s.system_prompt :: s.chat_history ++
           [PMessage.human
             (formatDesignPrompt s.query topName baseSummary bundle)])
        resource_report := some rep }

/-- The `agent` node: send `state["messages"]`, store the raw response. -/
def agentNode (llmResponse : List PMessage → List Char) (s : PState) :
    Except (List Char) PState :=
  match s.messages with
  | none => .error ("KeyError: messages").data
  | some ms => .ok { s with agent_response := some (llmResponse ms) }

/-- `apply_optimized_hdl_node`: delegate to the materializer and store the
resulting paths. -/
def applyOptimizedHdlNode (readFile : List Char → Option (List Char))
    (s : PState) : Except (List Char) PState :=
  match s.hdl_paths with
  | [] => .error ("apply_optimized_hdl_node: no HDL paths provided").data
  | _ :: _ =>
    match s.top_name with
    | none => .error ("KeyError: top_name").data
    | some _ =>
      match s.agent_response with
      | none => .error ("KeyError: agent_response").data
      | some resp =>
        match (writeFromAgentResponse
            (s.hdl_paths.map (fun p => (pathName p, readFile p))) resp).result with
        | .error e => .error e
        | .ok r =>
          .ok { s with
            optimized_hdl_paths := some r.allPaths
            optimized_files := some r.changedFiles }

/-- `_select_paths_for_downstream`: `"optimized_hdl_paths" in state`. -/
def selectPathsForDownstream (s : PState) : List (List Char) :=
  match s.optimized_hdl_paths with
  | some l => l
  | none => s.hdl_paths

/-- `compile_check_node`. -/
def compileCheckNode
    (compileRun : List (List Char) → List Char → Bool × Option (List Char))
    (s : PState) : Except (List Char) PState :=
  let paths := selectPathsForDownstream s
  if paths.isEmpty then
    .error ("compile_check_node: no HDL paths provided").data
  else
    match s.top_name with
    | none => .error ("KeyError: top_name").data
    | some topName =>
      let r := compileRun paths topName
      .ok { s with compile_ok := some r.1, compile_errors := some r.2 }

/-- `resource_final_node`. -/
def resourceFinalNode
    (resourceRun : List (List Char) → List Char →
      Except (List Char) StubResourceReport)
    (s : PState) : Except (List Char) PState :=
  let paths := selectPathsForDownstream s
  if paths.isEmpty then
    .error ("resource_final_node: no HDL paths provided").data
  else
    match s.top_name, s.base_summary with
    | none, _ => .error ("KeyError: top_name").data
    | some _, none => .error ("KeyError: base_summary").data
    | some topName, some baseSummary =>
      match resourceRun paths topName with
      | .error e => .error e
      | .ok rep =>
        let finalSummary := stubHumanSummary rep
        .ok { s with
          final_summary := some finalSummary
          summary_text := some
            (("\n\n---\nResource utilization summary:\n- Before optimization: ").data ++
             baseSummary ++
             ("\n- After optimization:  ").data ++ finalSummary ++ ['\n'])
          top_name := some topName
          resource_report := some rep }

/-- All collaborator dependencies of one pipeline run. -/
structure PipelineDeps where
  resourceRun : List (List Char) → List Char →
    Except (List Char) StubResourceReport
  readFile : List Char → Option (List Char)
  llmResponse : List PMessage → List Char
  compileRun : List (List Char) → List Char → Bool × Option (List Char)

/-- The first three stages, `resource_init → agent → apply_optimized_hdl`. -/
def runFirstThree (d : PipelineDeps) (s : PState) : Except (List Char) PState :=
  (resourceInitNode d.resourceRun d.readFile s).bind
    (fun s1 => (agentNode d.llmResponse s1).bind
      (fun s2 => applyOptimizedHdlNode d.readFile s2))

/-- The full linear graph
`resource_init → agent → apply_optimized_hdl → compile_check → resource_final`. -/
def runPipeline (d : PipelineDeps) (s : PState) : Except (List Char) PState :=
  (runFirstThree d s).bind
    (fun s3 => (compileCheckNode d.compileRun s3).bind
      (fun s4 => resourceFinalNode d.resourceRun s4))

/-! ## Specification-side helpers

These definitions express, over the embedded code, the shapes the claims
talk about: line trimming as performed by `strip` on a joined block,
re-wrapping an extracted mapping into fenced blocks, and the first-wins /
last-wins views of an insertion-ordered dict. -/

/-- The effect of `str.lstrip` on a `"\n".join`ed list of lines: leading
all-whitespace lines disappear and the first remaining line is
left-stripped. -/
def ltrimLines : List (List Char) → List (List Char)
  | [] => []
  | l :: ls => if lstrip l = [] then ltrimLines ls else lstrip l :: ls

/-- The effect of `str.rstrip` on a `"\n".join`ed list of lines. -/
def rtrimLines : List (List Char) → List (List Char)
  | [] => []
  | [l] => if rstrip l = [] then [] else [rstrip l]
  | l :: ls =>
    if rtrimLines ls = [] then (if rstrip l = [] then [] else [rstrip l])
    else l :: rtrimLines ls

def trimLines (L : List (List Char)) : List (List Char) :=
  rtrimLines (ltrimLines L)

/-- Wrap one extracted content back into the fenced format the extractor
consumes. -/
def wrapBlock (c : List Char) : List Char :=
  ("```vhdl\n").data ++ c ++ ("```").data

/-- Re-wrap a whole filename→content mapping. -/
def rewrapBlocks (m : List (List Char × List Char)) : List Char :=
  (m.map (fun p => wrapBlock p.2)).flatten

/-- Keys in order of first appearance (the iteration order of a Python
dict built by repeated insertion). -/
def dedupFirstAux (seen : List (List Char)) :
    List (List Char) → List (List Char)
  | [] => []
  | k :: rest =>
    if seen.contains k then dedupFirstAux seen rest
    else k :: dedupFirstAux (k :: seen) rest

def dedupFirst (l : List (List Char)) : List (List Char) := dedupFirstAux [] l

/-- The value of the last pair carrying key `k` (last-write-wins view). -/
def lastWins : List (List Char × List Char) → List Char → Option (List Char)
  | [], _ => none
  | p :: rest, k =>
    match lastWins rest k with
    | some v => some v
    | none => if p.1 = k then some p.2 else none

/-! ## Concrete inputs used by the claims -/

/-- Scenario A response text: one `vhdl` fence, header
`-- File: top.vhd (UPDATED)`, body `entity top is end top;`. -/
def c2Text : List Char :=
  ("```vhdl\n-- File: top.vhd (UPDATED)\nentity top is end top;\n```").data

/-- The content the code actually writes for `top.vhd` in scenario A: the
header line is retained. -/
def c2WrittenContent : List Char :=
  ("-- File: top.vhd (UPDATED)\nentity top is end top;\n").data

/-- Scenario A original files, with concrete contents. -/
def c2Originals : List (List Char × Option (List Char)) :=
  [(("pkg.vhd").data, some ("package pkg is end pkg;").data),
   (("top.vhd").data, some ("entity told is end told;").data)]

/-- A text with two fenced regions declaring the same filename. -/
def c7Text : List Char :=
  ("```vhdl\n-- File: a.vhd\nfirst body\n```\nand then\n```vhdl\n-- File: a.vhd\nsecond body\n```").data

/-- The report text of scenario C, with the underscored LUT row. -/
def c5Report : List Char :=
  ("| Device       : xc7vx485tffg1157-1\n+-------------------------+------+-------+-------+-----------+-------+\n| Slice LUTs*             | 6_528 | 0 | 0 | 303600 | 2.15 |\n| Slice Registers         | 3001 | 0 | 0 | 607200 | 0.49 |\n| DSPs                    | 9 | 0 | 0 | 2800 | 0.32 |\n| Block RAM Tile          | 2 | 0 | 0 | 1030 | 0.19 |").data

/-- The two reasoning chunks of the C1 failing input: index 0 first carries
`"ab"`, then its prefix-extension `"abc"`. -/
def c1Chunks : List ChunkContent :=
  [ChunkContent.parts [.reasoning [.item 0 (("ab").data)]],
   ChunkContent.parts [.reasoning [.item 0 (("abc").data)]]]

/-- Concrete pipeline dependencies used to witness pipeline theorems. -/
def witnessDeps : PipelineDeps :=
  { resourceRun := fun _ _ => .ok (stubResourceRun (("GenericFPGA").data) [] [])
    readFile := fun _ => some (("x").data)
    llmResponse := fun _ => c2Text
    compileRun := fun _ _ => (true, none) }

/-- The initial pipeline state of the concrete C9 run: one HDL file and a
concrete optimization goal. -/
def c9Init : PState :=
  initFullGraphState [("top.vhd").data] (("optimize").data) [] (("system").data)

/-- The state that reaches `compile_check` in the concrete C9 run (the
`.error` arm is never taken; it only keeps the definition total). -/
def c9S3 : PState :=
  match runFirstThree witnessDeps c9Init with
  | .ok s => s
  | .error _ => c9Init

/-! # Lemmas

## Stripping -/

theorem lstrip_nil_iff (l : List Char) :
    lstrip l = [] ↔ ∀ c ∈ l, isPySpace c := by
  simp [lstrip, List.dropWhile_eq_nil_iff]

theorem rstrip_cons_nil {c : Char} {t : List Char} (h : rstrip t = []) :
    rstrip (c :: t) = if isPySpace c then [] else [c] := by
  simp only [rstrip, h]

theorem rstrip_cons_of_ne {c : Char} {t : List Char} (h : rstrip t ≠ []) :
    rstrip (c :: t) = c :: rstrip t := by
  cases hr : rstrip t with
  | nil => exact absurd hr h
  | cons r rs => simp only [rstrip, hr]

theorem lstrip_cons (c : Char) (t : List Char) :
    lstrip (c :: t) = if isPySpace c then lstrip t else c :: t := by
  simp only [lstrip, List.dropWhile_cons]

theorem rstrip_nil_iff (l : List Char) :
    rstrip l = [] ↔ ∀ c ∈ l, isPySpace c := by
  induction l with
  | nil => simp [rstrip]
  | cons c t ih =>
    cases h : rstrip t with
    | nil =>
      have ht : ∀ x ∈ t, isPySpace x := ih.mp h
      by_cases hc : isPySpace c = true
      · rw [rstrip_cons_nil h, if_pos hc]
        constructor
        · intro _ x hx
          rcases List.mem_cons.mp hx with rfl | hxt
          · exact hc
          · exact ht x hxt
        · intro _; rfl
      · rw [rstrip_cons_nil h, if_neg hc]
        constructor
        · intro hcontra; exact absurd hcontra (by simp)
        · intro hall; exact absurd (hall c (List.mem_cons_self c t)) hc
    | cons r rs =>
      rw [rstrip_cons_of_ne (by rw [h]; simp)]
      constructor
      · intro hx; exact absurd hx (by simp)
      · intro hall
        have hall' : ∀ x ∈ t, isPySpace x :=
          fun x hx => hall x (List.mem_cons_of_mem c hx)
        rw [ih.mpr hall'] at h
        exact List.noConfusion h

theorem lstrip_append (x y : List Char) :
    lstrip (x ++ y) = if lstrip x = [] then lstrip y else lstrip x ++ y := by
  induction x with
  | nil => simp [lstrip]
  | cons c t ih =>
    by_cases hc : isPySpace c = true
    · simpa [lstrip, hc] using ih
    · simp [lstrip, hc]

theorem rstrip_append (x y : List Char) :
    rstrip (x ++ y) = if rstrip y = [] then rstrip x else x ++ rstrip y := by
  induction x with
  | nil => by_cases h : rstrip y = [] <;> simp [h, rstrip]
  | cons c t ih =>
    by_cases h : rstrip y = []
    · simp only [h, if_true] at ih ⊢
      show rstrip (c :: (t ++ y)) = rstrip (c :: t)
      simp only [rstrip, ih]
    · simp only [h, if_false] at ih ⊢
      show rstrip (c :: (t ++ y)) = c :: (t ++ rstrip y)
      simp only [rstrip, ih]
      cases ht : t ++ rstrip y with
      | nil =>
        rcases List.append_eq_nil.mp ht with ⟨-, h2⟩
        exact absurd h2 h
      | cons a b => rfl

theorem lstrip_idem (l : List Char) : lstrip (lstrip l) = lstrip l := by
  induction l with
  | nil => rfl
  | cons c t ih =>
    by_cases hc : isPySpace c = true
    · simpa [lstrip, hc] using ih
    · simp [lstrip, hc]

theorem rstrip_idem (l : List Char) : rstrip (rstrip l) = rstrip l := by
  induction l with
  | nil => rfl
  | cons c t ih =>
    cases h : rstrip t with
    | nil =>
      by_cases hc : isPySpace c = true
      · simp [rstrip, h, hc]
      · simp [rstrip, h, hc]
    | cons r rs =>
      simp only [rstrip, h] at ih ⊢
      simp only [rstrip, ih]

theorem lstrip_rstrip_comm (l : List Char) :
    lstrip (rstrip l) = rstrip (lstrip l) := by
  induction l with
  | nil => rfl
  | cons c t ih =>
    by_cases hc : isPySpace c = true
    · cases h : rstrip t with
      | nil =>
        have ht : ∀ x ∈ t, isPySpace x := (rstrip_nil_iff t).mp h
        have hlt : lstrip t = [] := (lstrip_nil_iff t).mpr ht
        rw [rstrip_cons_nil h, if_pos hc, lstrip_cons, if_pos hc, hlt]
        rfl
      | cons r rs =>
        rw [rstrip_cons_of_ne (by rw [h]; simp), lstrip_cons, if_pos hc,
          lstrip_cons, if_pos hc, ih]
    · cases h : rstrip t with
      | nil =>
        rw [rstrip_cons_nil h, if_neg hc, lstrip_cons, if_neg hc,
          lstrip_cons, if_neg hc, rstrip_cons_nil h, if_neg hc]
      | cons r rs =>
        have hne : rstrip t ≠ [] := by rw [h]; simp
        rw [rstrip_cons_of_ne hne, lstrip_cons, if_neg hc, lstrip_cons,
          if_neg hc, rstrip_cons_of_ne hne]

theorem pyStrip_idem (l : List Char) : pyStrip (pyStrip l) = pyStrip l := by
  show rstrip (lstrip (rstrip (lstrip l))) = rstrip (lstrip l)
  rw [lstrip_rstrip_comm, lstrip_idem, rstrip_idem]

theorem pyStrip_lstrip (l : List Char) : pyStrip (lstrip l) = pyStrip l := by
  show rstrip (lstrip (lstrip l)) = rstrip (lstrip l)
  rw [lstrip_idem]

theorem pyStrip_rstrip (l : List Char) : pyStrip (rstrip l) = pyStrip l := by
  show rstrip (lstrip (rstrip l)) = rstrip (lstrip l)
  rw [lstrip_rstrip_comm, rstrip_idem]

theorem pyStrip_nil_iff (l : List Char) :
    pyStrip l = [] ↔ ∀ c ∈ l, isPySpace c := by
  constructor
  · intro h c hc
    rw [← List.takeWhile_append_dropWhile (p := isPySpace) (l := l)] at hc
    rcases List.mem_append.mp hc with h1 | h2
    · exact List.mem_takeWhile_imp h1
    · exact (rstrip_nil_iff _).mp h c h2
  · intro h
    show rstrip (lstrip l) = []
    rw [(lstrip_nil_iff l).mpr h]
    rfl

theorem rstrip_subset (l : List Char) : ∀ c ∈ rstrip l, c ∈ l := by
  induction l with
  | nil => intro c hc; exact absurd hc (by simp [rstrip])
  | cons a t ih =>
    intro c hc
    cases h : rstrip t with
    | nil =>
      rw [rstrip_cons_nil h] at hc
      by_cases ha : isPySpace a = true
      · rw [if_pos ha] at hc; exact absurd hc (by simp)
      · rw [if_neg ha] at hc
        simp only [List.mem_singleton] at hc
        exact hc ▸ List.mem_cons_self a t
    | cons r rs =>
      rw [rstrip_cons_of_ne (by rw [h]; simp)] at hc
      rcases List.mem_cons.mp hc with rfl | hct
      · exact List.mem_cons_self c t
      · exact List.mem_cons_of_mem a (ih c hct)

theorem lstrip_subset (l : List Char) : ∀ c ∈ lstrip l, c ∈ l :=
  fun _ hc => (List.dropWhile_sublist isPySpace).subset hc

/-! ## Splitting into lines and joining back -/

theorem normNewlines_cons_of_ne {c : Char} (t : List Char) (h : ¬ c = '\r') :
    normNewlines (c :: t) = c :: normNewlines t := by
  cases t with
  | nil => simp [normNewlines, h]
  | cons d r => simp [normNewlines, h]

theorem normNewlines_eq_self {l : List Char} (h : ∀ c ∈ l, ¬ c = '\r') :
    normNewlines l = l := by
  induction l with
  | nil => rfl
  | cons c t ih =>
    rw [normNewlines_cons_of_ne t (h c (List.mem_cons_self c t)),
      ih (fun x hx => h x (List.mem_cons_of_mem c hx))]

theorem splitlinesGo_ne_nil_of_acc {l : List Char} {acc : List Char}
    (h : ¬ acc = []) : ¬ splitlinesGo l acc = [] := by
  induction l generalizing acc with
  | nil => simp [splitlinesGo, h]
  | cons c t ih =>
    by_cases hc : isLineBreak c = true
    · simp [splitlinesGo, hc]
    · simpa [splitlinesGo, hc] using ih (by simp)

theorem splitlinesGo_eq_nil_iff (l : List Char) (acc : List Char) :
    splitlinesGo l acc = [] ↔ l = [] ∧ acc = [] := by
  induction l generalizing acc with
  | nil =>
    by_cases h : acc = [] <;> simp [splitlinesGo, h, List.isEmpty_iff]
  | cons c t ih =>
    by_cases hc : isLineBreak c = true
    · simp [splitlinesGo, hc]
    · rw [splitlinesGo, if_neg hc, ih]
      simp

theorem splitlinesGo_append_line {x : List Char}
    (hx : ∀ c ∈ x, isLineBreak c = false) (rest acc : List Char) :
    splitlinesGo (x ++ '\n' :: rest) acc =
      (acc.reverse ++ x) :: splitlinesGo rest [] := by
  induction x generalizing acc with
  | nil =>
    show splitlinesGo ('\n' :: rest) acc = _
    rw [splitlinesGo, if_pos (by decide : isLineBreak '\n' = true)]
    simp
  | cons c t ih =>
    have hc : isLineBreak c = false := hx c (List.mem_cons_self c t)
    show splitlinesGo (c :: (t ++ '\n' :: rest)) acc = _
    rw [splitlinesGo, if_neg (by simp [hc]),
      ih (fun a ha => hx a (List.mem_cons_of_mem c ha))]
    simp

theorem splitlinesGo_join_nl {M : List (List Char)} (hM : ¬ M = [])
    (h : ∀ l ∈ M, ∀ c ∈ l, isLineBreak c = false) :
    splitlinesGo (joinNL M ++ ['\n']) [] = M := by
  induction M with
  | nil => exact absurd rfl hM
  | cons l ls ih =>
    cases ls with
    | nil =>
      show splitlinesGo (l ++ '\n' :: []) [] = [l]
      rw [splitlinesGo_append_line (h l (List.mem_cons_self l [])) [] []]
      simp [splitlinesGo]
    | cons m ms =>
      have hjoin : joinNL (l :: m :: ms) = l ++ '\n' :: joinNL (m :: ms) := rfl
      rw [hjoin, List.append_assoc]
      show splitlinesGo (l ++ '\n' :: (joinNL (m :: ms) ++ ['\n'])) [] =
        l :: m :: ms
      rw [splitlinesGo_append_line (h l (List.mem_cons_self l _))]
      rw [ih (by simp)
        (fun a ha c hc => h a (List.mem_cons_of_mem l ha) c hc)]
      simp

/-- `"\n".join(b.splitlines())` restores `b` when `b` uses only `\n` breaks
and does not end with one. -/
theorem joinNL_splitlinesGo {s : List Char}
    (hn : ∀ c ∈ s, isLineBreak c = true → c = '\n')
    (hl : ¬ s.getLast? = some '\n') :
    ∀ acc, joinNL (splitlinesGo s acc) = acc.reverse ++ s := by
  induction s with
  | nil =>
    intro acc
    by_cases h : acc = []
    · simp [splitlinesGo, h, joinNL]
    · simp [splitlinesGo, h, List.isEmpty_iff, joinNL]
  | cons c t ih =>
    intro acc
    by_cases hc : isLineBreak c = true
    case pos =>
      have hcn : c = '\n' := hn c (List.mem_cons_self c t) hc
      subst hcn
      cases t with
      | nil => exact absurd (show (['\n'] : List Char).getLast? = some '\n' from rfl) hl
      | cons m ms =>
        have hn' : ∀ x ∈ m :: ms, isLineBreak x = true → x = '\n' :=
          fun x hx => hn x (List.mem_cons_of_mem _ hx)
        have hl' : ¬ (m :: ms).getLast? = some '\n' := by
          intro hcontra
          exact hl (by rw [List.getLast?_cons_cons]; exact hcontra)
        have hrec : joinNL (splitlinesGo (m :: ms) []) = m :: ms := by
          simpa using ih hn' hl' []
        rw [splitlinesGo, if_pos hc]
        have hne : ¬ splitlinesGo (m :: ms) ([] : List Char) = [] := by
          rw [splitlinesGo_eq_nil_iff]; simp
        obtain ⟨a, b, hab⟩ :
            ∃ a b, splitlinesGo (m :: ms) ([] : List Char) = a :: b := by
          cases hsp : splitlinesGo (m :: ms) ([] : List Char) with
          | nil => exact absurd hsp hne
          | cons a b => exact ⟨a, b, rfl⟩
        rw [hab]
        have hstep : joinNL (acc.reverse :: a :: b) =
            acc.reverse ++ '\n' :: joinNL (a :: b) := rfl
        rw [hstep, ← hab, hrec]
    case neg =>
      rw [splitlinesGo, if_neg hc]
      have hn' : ∀ x ∈ t, isLineBreak x = true → x = '\n' :=
        fun x hx => hn x (List.mem_cons_of_mem _ hx)
      have hl' : ¬ t.getLast? = some '\n' := by
        cases t with
        | nil => simp
        | cons m ms =>
          intro hcontra
          exact hl (by rw [List.getLast?_cons_cons]; exact hcontra)
      rw [ih hn' hl' (c :: acc)]
      simp

theorem rtrimLines_pair (l m : List Char) (ms : List (List Char)) :
    rtrimLines (l :: m :: ms) =
      if rtrimLines (m :: ms) = []
      then (if rstrip l = [] then [] else [rstrip l])
      else l :: rtrimLines (m :: ms) := rfl

theorem lstrip_joinNL (L : List (List Char)) :
    lstrip (joinNL L) = joinNL (ltrimLines L) := by
  induction L with
  | nil => rfl
  | cons l ls ih =>
    cases ls with
    | nil =>
      show lstrip l = joinNL (ltrimLines [l])
      by_cases h : lstrip l = []
      · simp [ltrimLines, h, joinNL]
      · simp [ltrimLines, h, joinNL]
    | cons m ms =>
      have hj : joinNL (l :: m :: ms) = l ++ '\n' :: joinNL (m :: ms) := rfl
      rw [hj, lstrip_append]
      by_cases h : lstrip l = []
      · rw [if_pos h]
        have hnl : lstrip ('\n' :: joinNL (m :: ms)) =
            lstrip (joinNL (m :: ms)) := by
          rw [lstrip_cons, if_pos (by decide)]
        rw [hnl, ih]
        simp [ltrimLines, h]
      · rw [if_neg h]
        simp only [ltrimLines, h, if_false]
        have : joinNL (lstrip l :: m :: ms) =
            lstrip l ++ '\n' :: joinNL (m :: ms) := rfl
        rw [this]

theorem joinNL_rtrimLines_nil {M : List (List Char)}
    (h : joinNL (rtrimLines M) = []) : rtrimLines M = [] := by
  induction M with
  | nil => rfl
  | cons l ls ih =>
    cases ls with
    | nil =>
      by_cases hr : rstrip l = []
      · simp [rtrimLines, hr]
      · rw [show rtrimLines [l] = [rstrip l] from by simp [rtrimLines, hr]] at h ⊢
        exact absurd (show rstrip l = [] from h) hr
    | cons m ms =>
      rw [rtrimLines_pair] at h ⊢
      by_cases hr : rtrimLines (m :: ms) = []
      · rw [if_pos hr] at h ⊢
        by_cases h2 : rstrip l = []
        · simp [h2]
        · rw [if_neg h2] at h ⊢
          exact absurd (show rstrip l = [] from h) h2
      · rw [if_neg hr] at h ⊢
        obtain ⟨a, b, hab⟩ : ∃ a b, rtrimLines (m :: ms) = a :: b := by
          cases hx : rtrimLines (m :: ms) with
          | nil => exact absurd hx hr
          | cons a b => exact ⟨a, b, rfl⟩
        rw [hab] at h
        exact absurd h (by simp [joinNL])

theorem rstrip_joinNL (M : List (List Char)) :
    rstrip (joinNL M) = joinNL (rtrimLines M) := by
  induction M with
  | nil => rfl
  | cons l ls ih =>
    cases ls with
    | nil =>
      show rstrip l = joinNL (rtrimLines [l])
      by_cases h : rstrip l = []
      · simp [rtrimLines, h, joinNL]
      · simp [rtrimLines, h, joinNL]
    | cons m ms =>
      have hj : joinNL (l :: m :: ms) = l ++ '\n' :: joinNL (m :: ms) := rfl
      rw [hj, rstrip_append]
      by_cases h2 : rstrip (joinNL (m :: ms)) = []
      · have hyy : rstrip ('\n' :: joinNL (m :: ms)) = [] := by
          rw [rstrip_cons_nil h2, if_pos (by decide)]
        rw [if_pos hyy]
        have hrt : rtrimLines (m :: ms) = [] :=
          joinNL_rtrimLines_nil (by rw [← ih]; exact h2)
        rw [rtrimLines_pair, if_pos hrt]
        by_cases h3 : rstrip l = []
        · simp [h3, joinNL]
        · simp [h3, joinNL]
      · have hyy : rstrip ('\n' :: joinNL (m :: ms)) =
            '\n' :: rstrip (joinNL (m :: ms)) := rstrip_cons_of_ne h2
        have hyne : ¬ rstrip ('\n' :: joinNL (m :: ms)) = [] := by
          rw [hyy]; simp
        rw [if_neg hyne, hyy, ih]
        have hrne : ¬ rtrimLines (m :: ms) = [] := by
          intro hcontra
          rw [ih, hcontra] at h2
          exact h2 rfl
        rw [rtrimLines_pair, if_neg hrne]
        obtain ⟨a, b, hab⟩ : ∃ a b, rtrimLines (m :: ms) = a :: b := by
          cases hx : rtrimLines (m :: ms) with
          | nil => exact absurd hx hrne
          | cons a b => exact ⟨a, b, rfl⟩
        rw [hab]
        rfl

theorem pyStrip_joinNL (L : List (List Char)) :
    pyStrip (joinNL L) = joinNL (trimLines L) := by
  show rstrip (lstrip (joinNL L)) = _
  rw [lstrip_joinNL, rstrip_joinNL]
  rfl

theorem mem_ltrimLines {L : List (List Char)} {x : List Char}
    (h : x ∈ ltrimLines L) : x ∈ L ∨ ∃ l ∈ L, x = lstrip l := by
  induction L with
  | nil => exact absurd h (by simp [ltrimLines])
  | cons l ls ih =>
    by_cases hl : lstrip l = []
    · rw [ltrimLines, if_pos hl] at h
      rcases ih h with hm | ⟨l0, hl0, hx⟩
      · exact Or.inl (List.mem_cons_of_mem l hm)
      · exact Or.inr ⟨l0, List.mem_cons_of_mem l hl0, hx⟩
    · rw [ltrimLines, if_neg hl] at h
      rcases List.mem_cons.mp h with rfl | hm
      · exact Or.inr ⟨l, List.mem_cons_self l ls, rfl⟩
      · exact Or.inl (List.mem_cons_of_mem l hm)

theorem mem_rtrimLines {M : List (List Char)} {x : List Char}
    (h : x ∈ rtrimLines M) : x ∈ M ∨ ∃ l ∈ M, x = rstrip l := by
  induction M with
  | nil => exact absurd h (by simp [rtrimLines])
  | cons l ls ih =>
    cases ls with
    | nil =>
      by_cases hr : rstrip l = []
      · rw [show rtrimLines [l] = [] from by simp [rtrimLines, hr]] at h
        exact absurd h (by simp)
      · rw [show rtrimLines [l] = [rstrip l] from by simp [rtrimLines, hr]] at h
        simp only [List.mem_singleton] at h
        exact Or.inr ⟨l, List.mem_cons_self l [], h⟩
    | cons m ms =>
      rw [rtrimLines_pair] at h
      by_cases hrt : rtrimLines (m :: ms) = []
      · rw [if_pos hrt] at h
        by_cases hr : rstrip l = []
        · rw [if_pos hr] at h; exact absurd h (by simp)
        · rw [if_neg hr] at h
          simp only [List.mem_singleton] at h
          exact Or.inr ⟨l, List.mem_cons_self l _, h⟩
      · rw [if_neg hrt] at h
        rcases List.mem_cons.mp h with rfl | hm
        · exact Or.inl (List.mem_cons_self x _)
        · rcases ih hm with hm2 | ⟨l0, hl0, hx⟩
          · exact Or.inl (List.mem_cons_of_mem l hm2)
          · exact Or.inr ⟨l0, List.mem_cons_of_mem l hl0, hx⟩

theorem trimLines_no_break {L : List (List Char)}
    (h : ∀ l ∈ L, ∀ c ∈ l, isLineBreak c = false) :
    ∀ l ∈ trimLines L, ∀ c ∈ l, isLineBreak c = false := by
  intro x hx c hc
  have hmemL : ∀ y ∈ ltrimLines L, ∀ d ∈ y, isLineBreak d = false := by
    intro y hy d hd
    rcases mem_ltrimLines hy with hm | ⟨l0, hl0, rfl⟩
    · exact h y hm d hd
    · exact h l0 hl0 d (lstrip_subset _ d hd)
  rcases mem_rtrimLines hx with hm | ⟨l0, hl0, rfl⟩
  · exact hmemL x hm c hc
  · exact hmemL l0 hl0 c (rstrip_subset _ c hc)

theorem headerFilename_nil : headerFilename [] = none := rfl

theorem firstHeaderResult_cons (l : List Char) (ls : List (List Char)) :
    firstHeaderResult (l :: ls) =
      match headerFilename (pyStrip l) with
      | some v => some v
      | none => firstHeaderResult ls := by
  rw [firstHeaderResult, List.findSome?_cons]
  cases headerFilename (pyStrip l) <;> rfl

theorem firstHeaderResult_none {M : List (List Char)}
    (h : ∀ l ∈ M, headerFilename (pyStrip l) = none) :
    firstHeaderResult M = none := by
  induction M with
  | nil => rfl
  | cons l ls ih =>
    rw [firstHeaderResult_cons, h l (List.mem_cons_self l ls)]
    exact ih (fun x hx => h x (List.mem_cons_of_mem l hx))

theorem pyStrip_of_rstrip_nil {l : List Char} (h : rstrip l = []) :
    pyStrip l = [] :=
  (pyStrip_nil_iff l).mpr ((rstrip_nil_iff l).mp h)

theorem rtrimLines_all_rstrip_nil {M : List (List Char)}
    (h : rtrimLines M = []) : ∀ l ∈ M, rstrip l = [] := by
  induction M with
  | nil => intro l hl; exact absurd hl (by simp)
  | cons l ls ih =>
    cases ls with
    | nil =>
      intro x hx
      simp only [List.mem_singleton] at hx
      subst hx
      by_cases hr : rstrip x = []
      · exact hr
      · rw [show rtrimLines [x] = [rstrip x] from by simp [rtrimLines, hr]] at h
        exact List.noConfusion h
    | cons m ms =>
      rw [rtrimLines_pair] at h
      by_cases hrt : rtrimLines (m :: ms) = []
      · rw [if_pos hrt] at h
        intro x hx
        rcases List.mem_cons.mp hx with rfl | hm
        · by_cases hr : rstrip x = []
          · exact hr
          · rw [if_neg hr] at h; exact List.noConfusion h
        · exact ih hrt x hm
      · rw [if_neg hrt] at h
        exact List.noConfusion h

theorem ltrimLines_firstHeader (L : List (List Char)) :
    firstHeaderResult (ltrimLines L) = firstHeaderResult L := by
  induction L with
  | nil => rfl
  | cons l ls ih =>
    by_cases hl : lstrip l = []
    · have hp : pyStrip l = [] := by
        show rstrip (lstrip l) = []
        rw [hl]; rfl
      rw [ltrimLines, if_pos hl, ih, firstHeaderResult_cons, hp,
        headerFilename_nil]
    · rw [ltrimLines, if_neg hl, firstHeaderResult_cons,
        firstHeaderResult_cons, pyStrip_lstrip]

theorem rtrimLines_firstHeader (M : List (List Char)) :
    firstHeaderResult (rtrimLines M) = firstHeaderResult M := by
  induction M with
  | nil => rfl
  | cons l ls ih =>
    cases ls with
    | nil =>
      by_cases hr : rstrip l = []
      · rw [show rtrimLines [l] = [] from by simp [rtrimLines, hr],
          firstHeaderResult_cons, pyStrip_of_rstrip_nil hr, headerFilename_nil]
      · rw [show rtrimLines [l] = [rstrip l] from by simp [rtrimLines, hr],
          firstHeaderResult_cons, firstHeaderResult_cons, pyStrip_rstrip]
    | cons m ms =>
      rw [rtrimLines_pair]
      by_cases hrt : rtrimLines (m :: ms) = []
      · have hall : ∀ x ∈ m :: ms, rstrip x = [] :=
          rtrimLines_all_rstrip_nil hrt
        have htail : firstHeaderResult (m :: ms) = none :=
          firstHeaderResult_none (fun x hx => by
            rw [pyStrip_of_rstrip_nil (hall x hx)]
            exact headerFilename_nil)
        rw [if_pos hrt, firstHeaderResult_cons, htail]
        by_cases hr : rstrip l = []
        · rw [if_pos hr, pyStrip_of_rstrip_nil hr, headerFilename_nil]
          rfl
        · rw [if_neg hr, firstHeaderResult_cons, pyStrip_rstrip]
          rfl
      · rw [if_neg hrt, firstHeaderResult_cons, firstHeaderResult_cons, ih]

theorem trimLines_firstHeader (L : List (List Char)) :
    firstHeaderResult (trimLines L) = firstHeaderResult L := by
  show firstHeaderResult (rtrimLines (ltrimLines L)) = _
  rw [rtrimLines_firstHeader, ltrimLines_firstHeader]

theorem mem_joinNL {M : List (List Char)} {ch : Char} (h : ch ∈ joinNL M) :
    ch = '\n' ∨ ∃ l ∈ M, ch ∈ l := by
  induction M with
  | nil => exact absurd h (by simp [joinNL])
  | cons l ls ih =>
    cases ls with
    | nil =>
      exact Or.inr ⟨l, List.mem_cons_self l [], h⟩
    | cons m ms =>
      have hj : joinNL (l :: m :: ms) = l ++ '\n' :: joinNL (m :: ms) := rfl
      rw [hj] at h
      rcases List.mem_append.mp h with h1 | h2
      · exact Or.inr ⟨l, List.mem_cons_self l _, h1⟩
      · rcases List.mem_cons.mp h2 with rfl | h3
        · exact Or.inl rfl
        · rcases ih h3 with hnl | ⟨l0, hl0, hc0⟩
          · exact Or.inl hnl
          · exact Or.inr ⟨l0, List.mem_cons_of_mem l hl0, hc0⟩

theorem splitlinesGo_lines_no_break {l : List Char} :
    ∀ {acc : List Char}, (∀ c ∈ acc, isLineBreak c = false) →
    ∀ line ∈ splitlinesGo l acc, ∀ c ∈ line, isLineBreak c = false := by
  induction l with
  | nil =>
    intro acc hacc line hline
    by_cases h : acc = []
    · rw [h] at hline; exact absurd hline (by simp [splitlinesGo])
    · simp only [splitlinesGo, List.isEmpty_iff, h, if_false,
        List.mem_singleton] at hline
      subst hline
      intro c hc
      exact hacc c (List.mem_reverse.mp hc)
  | cons a t ih =>
    intro acc hacc line hline
    by_cases ha : isLineBreak a = true
    · rw [splitlinesGo, if_pos ha] at hline
      rcases List.mem_cons.mp hline with rfl | htail
      · intro c hc; exact hacc c (List.mem_reverse.mp hc)
      · exact ih (by simp) line htail
    · rw [splitlinesGo, if_neg ha] at hline
      refine ih ?_ line hline
      intro c hc
      rcases List.mem_cons.mp hc with rfl | hct
      · simpa using ha
      · exact hacc c hct

/-! ## The normal form of extracted block contents -/

theorem processBlock_eq_some {B n c : List Char} :
    processBlock B = some (n, c) ↔
      firstHeaderResult (pySplitlines B) = some n ∧ ¬ n = [] ∧
      c = pyStrip (joinNL (pySplitlines B)) ++ ['\n'] := by
  unfold processBlock
  cases h : firstHeaderResult (pySplitlines B) with
  | none => simp
  | some fn =>
    rw [Option.some_bind]
    by_cases he : fn = []
    · subst he
      simp only [if_pos rfl]
      constructor
      · intro hx; exact Option.noConfusion hx
      · rintro ⟨h1, h2, -⟩
        exact absurd (Option.some.inj h1).symm h2
    · rw [if_neg he]
      simp only [Option.some.injEq, Prod.mk.injEq]
      constructor
      · rintro ⟨h1, h2⟩
        exact ⟨h1, h1 ▸ he, h2.symm⟩
      · rintro ⟨h1, -, h3⟩
        exact ⟨h1, h3.symm⟩

theorem pySplitlines_no_break (B : List Char) :
    ∀ l ∈ pySplitlines B, ∀ c ∈ l, isLineBreak c = false :=
  splitlinesGo_lines_no_break (by simp)

/-- The lines of a produced content are exactly the trimmed lines of the
source block. -/
theorem pySplitlines_clean (L : List (List Char))
    (hbf : ∀ l ∈ L, ∀ c ∈ l, isLineBreak c = false)
    (hne : ¬ trimLines L = []) :
    pySplitlines (pyStrip (joinNL L) ++ ['\n']) = trimLines L := by
  have hTbf : ∀ l ∈ trimLines L, ∀ c ∈ l, isLineBreak c = false :=
    trimLines_no_break hbf
  have hnoCR : ∀ ch ∈ joinNL (trimLines L) ++ ['\n'], ¬ ch = '\r' := by
    intro ch hch
    rcases List.mem_append.mp hch with h1 | h2
    · rcases mem_joinNL h1 with rfl | ⟨l0, hl0, hc0⟩
      · decide
      · intro hcr
        subst hcr
        have := hTbf l0 hl0 '\r' hc0
        exact absurd this (by decide)
    · simp only [List.mem_singleton] at h2
      subst h2
      decide
  rw [pyStrip_joinNL]
  show splitlinesGo (normNewlines _) [] = _
  rw [normNewlines_eq_self hnoCR]
  exact splitlinesGo_join_nl hne hTbf

/-- Re-parsing a produced content yields the same filename and the very same
content: the extractor's per-block normalization is idempotent and
filename-preserving. -/
theorem processBlock_reNF {B n c : List Char}
    (h : processBlock B = some (n, c)) : processBlock c = some (n, c) := by
  obtain ⟨hfh, hn, hc⟩ := processBlock_eq_some.mp h
  have hbf := pySplitlines_no_break B
  have hTne : ¬ trimLines (pySplitlines B) = [] := by
    intro hcontra
    have := trimLines_firstHeader (pySplitlines B)
    rw [hcontra, hfh] at this
    exact Option.noConfusion this
  have hsplit : pySplitlines c = trimLines (pySplitlines B) := by
    rw [hc]
    exact pySplitlines_clean _ hbf hTne
  apply processBlock_eq_some.mpr
  refine ⟨?_, hn, ?_⟩
  · rw [hsplit, trimLines_firstHeader, hfh]
  · rw [hsplit, ← pyStrip_joinNL, pyStrip_idem, hc]

/-! ## Backtick-fence structure -/

theorem startsTripleTick_dest {l : List Char} (h : startsTripleTick l = true) :
    ∃ t, l = '`' :: '`' :: '`' :: t := by
  match l with
  | [] => exact absurd h (by simp [startsTripleTick])
  | [a] => exact absurd h (by simp [startsTripleTick])
  | [a, b] => exact absurd h (by simp [startsTripleTick])
  | a :: b :: c :: t =>
    simp only [startsTripleTick, Bool.and_eq_true, decide_eq_true_eq] at h
    obtain ⟨⟨rfl, rfl⟩, rfl⟩ := h
    exact ⟨t, rfl⟩

theorem startsTripleTick_triple (t : List Char) :
    startsTripleTick ('`' :: '`' :: '`' :: t) = true := by
  simp [startsTripleTick]

theorem hasTripleTick_cons (a : Char) (t : List Char) :
    hasTripleTick (a :: t) = (startsTripleTick (a :: t) || hasTripleTick t) :=
  rfl

theorem hasTripleTick_cons_false {a : Char} {t : List Char}
    (h : hasTripleTick (a :: t) = false) :
    startsTripleTick (a :: t) = false ∧ hasTripleTick t = false := by
  rw [hasTripleTick_cons, Bool.or_eq_false_iff] at h
  exact h

theorem startsTripleTick_append {l y : List Char}
    (h : startsTripleTick l = true) : startsTripleTick (l ++ y) = true := by
  obtain ⟨t, rfl⟩ := startsTripleTick_dest h
  exact startsTripleTick_triple _

theorem hasTripleTick_append_left {x y : List Char}
    (h : hasTripleTick (x ++ y) = false) : hasTripleTick x = false := by
  induction x with
  | nil => rfl
  | cons a t ih =>
    obtain ⟨h1, h2⟩ := hasTripleTick_cons_false h
    rw [hasTripleTick_cons, Bool.or_eq_false_iff]
    refine ⟨?_, ih h2⟩
    by_cases hs : startsTripleTick (a :: t) = true
    · have h3 := startsTripleTick_append (y := y) hs
      rw [List.cons_append] at h3
      exact absurd h3 (ne_true_of_eq_false h1)
    · simpa using hs

theorem hasTripleTick_append_right {x y : List Char}
    (h : hasTripleTick (x ++ y) = false) : hasTripleTick y = false := by
  induction x with
  | nil => exact h
  | cons a t ih => exact ih (hasTripleTick_cons_false h).2

/-- `normNewlines` only rewrites break characters to `\n`; a backtick-free
head stays backtick-free. -/
theorem normNewlines_head_tick {t u : List Char}
    (h : normNewlines t = '`' :: u) :
    ∃ t', t = '`' :: t' ∧ normNewlines t' = u := by
  cases t with
  | nil => exact absurd h (by simp [normNewlines])
  | cons c rest =>
    by_cases hc : c = '\r'
    · subst hc
      have hv : ∃ v, normNewlines ('\r' :: rest) = '\n' :: v := by
        cases rest with
        | nil => exact ⟨[], rfl⟩
        | cons d r2 =>
          by_cases hd : d = '\n'
          · subst hd; exact ⟨normNewlines r2, rfl⟩
          · exact ⟨normNewlines (d :: r2), by simp [normNewlines, hd]⟩
      obtain ⟨v, hvv⟩ := hv
      rw [hvv] at h
      exact absurd (List.head_eq_of_cons_eq h) (by decide)
    · rw [normNewlines_cons_of_ne rest hc] at h
      exact ⟨rest, by rw [List.head_eq_of_cons_eq h],
        List.tail_eq_of_cons_eq h⟩

theorem normNewlines_no_triple {l : List Char}
    (h : hasTripleTick l = false) : hasTripleTick (normNewlines l) = false := by
  induction l using normNewlines.induct with
  | case1 rest ih =>
    rw [show normNewlines ('\r' :: '\n' :: rest) = '\n' :: normNewlines rest
      from rfl, hasTripleTick_cons, Bool.or_eq_false_iff]
    have hrest : hasTripleTick rest = false :=
      (hasTripleTick_cons_false (hasTripleTick_cons_false h).2).2
    refine ⟨?_, ih hrest⟩
    by_cases hs : startsTripleTick ('\n' :: normNewlines rest) = true
    · obtain ⟨t, ht⟩ := startsTripleTick_dest hs
      exact absurd (List.head_eq_of_cons_eq ht) (by decide)
    · simpa using hs
  | case2 rest hne ih =>
    have hnorm : normNewlines ('\r' :: rest) = '\n' :: normNewlines rest := by
      cases rest with
      | nil => rfl
      | cons c r2 =>
        have hcn : ¬ c = '\n' := fun hc => hne r2 (by rw [hc])
        simp [normNewlines, hcn]
    rw [hnorm, hasTripleTick_cons, Bool.or_eq_false_iff]
    have hrest : hasTripleTick rest = false := (hasTripleTick_cons_false h).2
    refine ⟨?_, ih hrest⟩
    by_cases hs : startsTripleTick ('\n' :: normNewlines rest) = true
    · obtain ⟨t, ht⟩ := startsTripleTick_dest hs
      exact absurd (List.head_eq_of_cons_eq ht) (by decide)
    · simpa using hs
  | case3 c rest hne1 hne2 ih =>
    have hc : ¬ c = '\r' := hne2
    rw [normNewlines_cons_of_ne rest hc, hasTripleTick_cons,
      Bool.or_eq_false_iff]
    have hrest : hasTripleTick rest = false := (hasTripleTick_cons_false h).2
    refine ⟨?_, ih hrest⟩
    by_cases hs : startsTripleTick (c :: normNewlines rest) = true
    · obtain ⟨t, ht⟩ := startsTripleTick_dest hs
      have hcc : c = '`' := List.head_eq_of_cons_eq ht
      have htail : normNewlines rest = '`' :: '`' :: t :=
        List.tail_eq_of_cons_eq ht
      obtain ⟨r1, hr1, hnr1⟩ := normNewlines_head_tick htail
      obtain ⟨r2, hr2, -⟩ := normNewlines_head_tick hnr1
      have : startsTripleTick (c :: rest) = true := by
        rw [hcc, hr1, hr2]
        exact startsTripleTick_triple _
      exact absurd this (by simp [(hasTripleTick_cons_false h).1])
    · simpa using hs
  | case4 => rfl

theorem splitlinesGo_no_triple {l : List Char} :
    ∀ {acc : List Char}, hasTripleTick (acc.reverse ++ l) = false →
    ∀ line ∈ splitlinesGo l acc, hasTripleTick line = false := by
  induction l with
  | nil =>
    intro acc h line hline
    by_cases ha : acc = []
    · rw [ha] at hline; exact absurd hline (by simp [splitlinesGo])
    · simp only [splitlinesGo, List.isEmpty_iff, ha, if_false,
        List.mem_singleton] at hline
      subst hline
      exact hasTripleTick_append_left h
  | cons a t ih =>
    intro acc h line hline
    by_cases ha : isLineBreak a = true
    · rw [splitlinesGo, if_pos ha] at hline
      rcases List.mem_cons.mp hline with rfl | htail
      · exact hasTripleTick_append_left h
      · refine ih ?_ line htail
        show hasTripleTick ([].reverse ++ t) = false
        have := hasTripleTick_append_right (x := acc.reverse ++ [a])
          (y := t) (by rw [List.append_assoc]; simpa using h)
        simpa using this
    · rw [splitlinesGo, if_neg ha] at hline
      refine ih ?_ line hline
      show hasTripleTick ((a :: acc).reverse ++ t) = false
      rw [List.reverse_cons, List.append_assoc]
      simpa using h

theorem hasTripleTick_append_nl {a b : List Char}
    (ha : hasTripleTick a = false) (hb : hasTripleTick b = false) :
    hasTripleTick (a ++ '\n' :: b) = false := by
  induction a with
  | nil =>
    rw [List.nil_append, hasTripleTick_cons, Bool.or_eq_false_iff]
    refine ⟨?_, hb⟩
    by_cases hs : startsTripleTick ('\n' :: b) = true
    · obtain ⟨t, ht⟩ := startsTripleTick_dest hs
      exact absurd (List.head_eq_of_cons_eq ht) (by decide)
    · simpa using hs
  | cons c t ih =>
    obtain ⟨h1, h2⟩ := hasTripleTick_cons_false ha
    rw [List.cons_append, hasTripleTick_cons, Bool.or_eq_false_iff]
    refine ⟨?_, ih h2⟩
    by_cases hs : startsTripleTick (c :: (t ++ '\n' :: b)) = true
    · obtain ⟨u, hu⟩ := startsTripleTick_dest hs
      have hcc : c = '`' := List.head_eq_of_cons_eq hu
      have htu : t ++ '\n' :: b = '`' :: '`' :: u := List.tail_eq_of_cons_eq hu
      match t, htu with
      | [], htu =>
        exact absurd (List.head_eq_of_cons_eq htu) (by decide)
      | [d], htu =>
        have := List.tail_eq_of_cons_eq htu
        exact absurd (List.head_eq_of_cons_eq this) (by decide)
      | d :: e :: t2, htu =>
        have hd : d = '`' := List.head_eq_of_cons_eq htu
        have he : e = '`' := List.head_eq_of_cons_eq (List.tail_eq_of_cons_eq htu)
        have : startsTripleTick (c :: d :: e :: t2) = true := by
          rw [hcc, hd, he]; exact startsTripleTick_triple _
        exact absurd this (by simp [h1])
    · simpa using hs

theorem joinNL_no_triple {M : List (List Char)}
    (h : ∀ l ∈ M, hasTripleTick l = false) :
    hasTripleTick (joinNL M) = false := by
  induction M with
  | nil => rfl
  | cons l ls ih =>
    cases ls with
    | nil => exact h l (List.mem_cons_self l [])
    | cons m ms =>
      have hj : joinNL (l :: m :: ms) = l ++ '\n' :: joinNL (m :: ms) := rfl
      rw [hj]
      exact hasTripleTick_append_nl (h l (List.mem_cons_self l _))
        (ih (fun x hx => h x (List.mem_cons_of_mem l hx)))

theorem hasTripleTick_append_nontick {a : List Char} {c : Char}
    (ha : hasTripleTick a = false) (hc : ¬ c = '`') :
    hasTripleTick (a ++ [c]) = false := by
  induction a with
  | nil =>
    rw [List.nil_append]
    rfl
  | cons d t ih =>
    obtain ⟨h1, h2⟩ := hasTripleTick_cons_false ha
    rw [List.cons_append, hasTripleTick_cons, Bool.or_eq_false_iff]
    refine ⟨?_, ih h2⟩
    by_cases hs : startsTripleTick (d :: (t ++ [c])) = true
    · obtain ⟨u, hu⟩ := startsTripleTick_dest hs
      have hdd : d = '`' := List.head_eq_of_cons_eq hu
      have htu : t ++ [c] = '`' :: '`' :: u := List.tail_eq_of_cons_eq hu
      match t, htu with
      | [], htu =>
        have : c = '`' := List.head_eq_of_cons_eq htu
        exact absurd this hc
      | [e], htu =>
        have := List.tail_eq_of_cons_eq htu
        have hc2 : c = '`' := List.head_eq_of_cons_eq this
        exact absurd hc2 hc
      | d2 :: e2 :: t2, htu =>
        have hd2 : d2 = '`' := List.head_eq_of_cons_eq htu
        have he2 : e2 = '`' :=
          List.head_eq_of_cons_eq (List.tail_eq_of_cons_eq htu)
        have : startsTripleTick (d :: d2 :: e2 :: t2) = true := by
          rw [hdd, hd2, he2]; exact startsTripleTick_triple _
        exact absurd this (by simp [h1])
    · simpa using hs

theorem rstrip_append_exists (l : List Char) : ∃ t, rstrip l ++ t = l := by
  induction l with
  | nil => exact ⟨[], rfl⟩
  | cons c t ih =>
    cases h : rstrip t with
    | nil =>
      rw [rstrip_cons_nil h]
      by_cases hc : isPySpace c = true
      · exact ⟨c :: t, by rw [if_pos hc]; rfl⟩
      · obtain ⟨u, hu⟩ := ih
        rw [h] at hu
        exact ⟨t, by rw [if_neg hc]; rfl⟩
    | cons r rs =>
      rw [rstrip_cons_of_ne (by rw [h]; simp)]
      obtain ⟨u, hu⟩ := ih
      exact ⟨u, by rw [List.cons_append, hu]⟩

theorem rstrip_no_triple {l : List Char} (h : hasTripleTick l = false) :
    hasTripleTick (rstrip l) = false := by
  obtain ⟨t, ht⟩ := rstrip_append_exists l
  exact hasTripleTick_append_left (x := rstrip l) (y := t) (by rw [ht]; exact h)

theorem lstrip_no_triple {l : List Char} (h : hasTripleTick l = false) :
    hasTripleTick (lstrip l) = false := by
  have hsplit : l.takeWhile isPySpace ++ l.dropWhile isPySpace = l :=
    List.takeWhile_append_dropWhile (p := isPySpace) (l := l)
  refine hasTripleTick_append_right (x := l.takeWhile isPySpace)
    (y := lstrip l) ?_
  show hasTripleTick (l.takeWhile isPySpace ++ l.dropWhile isPySpace) = false
  rw [hsplit]
  exact h

theorem pyStrip_no_triple {l : List Char} (h : hasTripleTick l = false) :
    hasTripleTick (pyStrip l) = false :=
  rstrip_no_triple (lstrip_no_triple h)

/-- The content produced for a triple-backtick-free block is itself
triple-backtick-free (so it can be wrapped back into a fence). -/
theorem processBlock_no_triple {B n c : List Char}
    (hB : hasTripleTick B = false) (h : processBlock B = some (n, c)) :
    hasTripleTick c = false := by
  obtain ⟨-, -, hc⟩ := processBlock_eq_some.mp h
  have hnorm : hasTripleTick (normNewlines B) = false := normNewlines_no_triple hB
  have hlines : ∀ line ∈ pySplitlines B, hasTripleTick line = false :=
    splitlinesGo_no_triple (by simpa using hnorm)
  have hjoin : hasTripleTick (joinNL (pySplitlines B)) = false :=
    joinNL_no_triple hlines
  rw [hc]
  exact hasTripleTick_append_nontick (pyStrip_no_triple hjoin) (by decide)

theorem splitAtFence_spec {l cap r : List Char}
    (h : splitAtFence l = some (cap, r)) :
    hasTripleTick cap = false ∧ cap ++ '`' :: '`' :: '`' :: r = l := by
  induction l generalizing cap r with
  | nil => exact absurd h (by simp [splitAtFence])
  | cons c rest ih =>
    rw [splitAtFence] at h
    by_cases hs : startsTripleTick (c :: rest) = true
    · rw [if_pos hs] at h
      obtain ⟨t, ht⟩ := startsTripleTick_dest hs
      have hc : c = '`' := List.head_eq_of_cons_eq ht
      have hrest : rest = '`' :: '`' :: t := List.tail_eq_of_cons_eq ht
      have hcap : cap = [] := (Prod.mk.injEq _ _ _ _ ▸ Option.some.inj h).1.symm
      have hr : r = rest.drop 2 := (Prod.mk.injEq _ _ _ _ ▸ Option.some.inj h).2.symm
      subst hcap
      constructor
      · rfl
      · rw [hr, hrest, hc]
        rfl
    · rw [if_neg hs] at h
      cases hsp : splitAtFence rest with
      | none => rw [hsp] at h; exact Option.noConfusion h
      | some pr =>
        obtain ⟨cap', r'⟩ := pr
        rw [hsp] at h
        have hcap : cap = c :: cap' :=
          (Prod.mk.injEq _ _ _ _ ▸ Option.some.inj h).1.symm
        have hr : r = r' := (Prod.mk.injEq _ _ _ _ ▸ Option.some.inj h).2.symm
        obtain ⟨ih1, ih2⟩ := ih hsp
        subst hcap hr
        constructor
        · rw [hasTripleTick_cons, Bool.or_eq_false_iff]
          refine ⟨?_, ih1⟩
          by_cases hs2 : startsTripleTick (c :: cap') = true
          · obtain ⟨u, hu⟩ := startsTripleTick_dest hs2
            have hcc : c = '`' := List.head_eq_of_cons_eq hu
            have hcap' : cap' = '`' :: '`' :: u := List.tail_eq_of_cons_eq hu
            have : startsTripleTick (c :: rest) = true := by
              rw [← ih2, hcap', hcc]
              exact startsTripleTick_triple _
            exact absurd this hs
          · simpa using hs2
        · rw [List.cons_append, ih2]

theorem findFenceCaptures_nil (f : Nat) : findFenceCaptures f [] = [] := by
  cases f <;> rfl

theorem dropLangTag_length_le (l : List Char) :
    (dropLangTag l).length ≤ l.length := by
  unfold dropLangTag
  split_ifs <;> simp [List.length_drop]

/-- The fuel value does not matter once it reaches the input length. -/
theorem findFenceCaptures_fuel_eq (f₁ : Nat) :
    ∀ (f₂ : Nat) (l : List Char), l.length ≤ f₁ → l.length ≤ f₂ →
    findFenceCaptures f₁ l = findFenceCaptures f₂ l := by
  induction f₁ with
  | zero =>
    intro f₂ l h1 _
    have hl : l = [] := List.length_eq_zero.mp (Nat.le_zero.mp h1)
    subst hl
    rw [findFenceCaptures_nil, findFenceCaptures_nil]
  | succ f ih =>
    intro f₂ l h1 h2
    cases l with
    | nil => rw [findFenceCaptures_nil, findFenceCaptures_nil]
    | cons c rest =>
      cases f₂ with
      | zero => exact absurd h2 (by simp)
      | succ g =>
        have hr1 : rest.length ≤ f := by simpa using h1
        have hrg : rest.length ≤ g := by simpa using h2
        show findFenceCaptures (f + 1) (c :: rest) =
          findFenceCaptures (g + 1) (c :: rest)
        unfold findFenceCaptures
        by_cases hs : startsTripleTick (c :: rest) = true
        · rw [if_pos hs, if_pos hs]
          cases hsp : splitAtFence
              ((dropLangTag ((c :: rest).drop 3)).dropWhile isPySpace) with
          | none => exact ih g rest hr1 hrg
          | some pr =>
            obtain ⟨cap, rest2⟩ := pr
            obtain ⟨-, hdec⟩ := splitAtFence_spec hsp
            have h3 := congrArg List.length hdec
            simp only [List.length_append, List.length_cons] at h3
            have h4 : ((dropLangTag ((c :: rest).drop 3)).dropWhile
                isPySpace).length ≤ ((c :: rest).drop 3).length :=
              le_trans (List.Sublist.length_le (List.dropWhile_sublist _))
                (dropLangTag_length_le _)
            have h5 : ((c :: rest).drop 3).length = rest.length - 2 := by
              simp [List.length_drop]
            exact congrArg (cap :: ·) (ih g rest2 (by omega) (by omega))
        · rw [if_neg hs, if_neg hs]
          exact ih g rest hr1 hrg

theorem findFenceCaptures_no_triple :
    ∀ (f : Nat) (l : List Char), ∀ B ∈ findFenceCaptures f l,
    hasTripleTick B = false := by
  intro f
  induction f with
  | zero => intro l B hB; exact absurd hB (by simp [findFenceCaptures])
  | succ f ih =>
    intro l B hB
    cases l with
    | nil => exact absurd hB (by simp [findFenceCaptures])
    | cons c rest =>
      unfold findFenceCaptures at hB
      by_cases hs : startsTripleTick (c :: rest) = true
      · rw [if_pos hs] at hB
        cases hsp : splitAtFence
            ((dropLangTag ((c :: rest).drop 3)).dropWhile isPySpace) with
        | none => rw [hsp] at hB; exact ih rest B hB
        | some pr =>
          obtain ⟨cap, rest2⟩ := pr
          rw [hsp] at hB
          rcases List.mem_cons.mp hB with rfl | htail
          · exact (splitAtFence_spec hsp).1
          · exact ih rest2 B htail
      · rw [if_neg hs] at hB
        exact ih rest B hB

theorem fenceCaptures_no_triple (l : List Char) :
    ∀ B ∈ fenceCaptures l, hasTripleTick B = false :=
  findFenceCaptures_no_triple l.length l

theorem splitAtFence_append_close :
    ∀ (x r : List Char), hasTripleTick x = false →
    x.getLast? = some '\n' →
    splitAtFence (x ++ '`' :: '`' :: '`' :: r) = some (x, r) := by
  intro x
  induction x with
  | nil =>
    intro r _ hlast
    exact absurd hlast (by simp)
  | cons c t ih =>
    intro r hx hlast
    cases t with
    | nil =>
      have hc : c = '\n' := by simpa using hlast
      subst hc
      rfl
    | cons d t2 =>
      have hlast2 : (d :: t2).getLast? = some '\n' := by
        rw [← List.getLast?_cons_cons]
        exact hlast
      have hx2 : hasTripleTick (d :: t2) = false :=
        (hasTripleTick_cons_false hx).2
      have hns : startsTripleTick (c :: ((d :: t2) ++ '`' :: '`' :: '`' :: r)) =
          false := by
        by_cases hs : startsTripleTick
            (c :: ((d :: t2) ++ '`' :: '`' :: '`' :: r)) = true
        · obtain ⟨u, hu⟩ := startsTripleTick_dest hs
          have hcc : c = '`' := List.head_eq_of_cons_eq hu
          have hdd : d = '`' :=
            List.head_eq_of_cons_eq (List.tail_eq_of_cons_eq hu)
          have ht2 : t2 ++ '`' :: '`' :: '`' :: r = '`' :: u :=
            List.tail_eq_of_cons_eq (List.tail_eq_of_cons_eq hu)
          cases t2 with
          | nil =>
            have hdn : d = '\n' := by simpa using hlast2
            rw [hdn] at hdd
            exact absurd hdd (by decide)
          | cons e t3 =>
            have hee : e = '`' := List.head_eq_of_cons_eq ht2
            have : startsTripleTick (c :: d :: e :: t3) = true := by
              rw [hcc, hdd, hee]
              exact startsTripleTick_triple _
            exact absurd this (by simp [(hasTripleTick_cons_false hx).1])
        · simpa using hs
      show splitAtFence (c :: ((d :: t2) ++ '`' :: '`' :: '`' :: r)) = _
      rw [splitAtFence, if_neg (ne_true_of_eq_false hns), ih r hx2 hlast2]

theorem rewrapBlocks_cons (p : List Char × List Char)
    (ps : List (List Char × List Char)) :
    rewrapBlocks (p :: ps) = wrapBlock p.2 ++ rewrapBlocks ps := by
  simp [rewrapBlocks]

/-- Scanning one wrapped block at the head of the text yields exactly that
block's content as the first capture. -/
theorem fenceCaptures_wrap (c rest : List Char)
    (hc : hasTripleTick c = false)
    (hshape : ∃ a y, c = a :: y ++ ['\n'] ∧ isPySpace a = false) :
    fenceCaptures (wrapBlock c ++ rest) = c :: fenceCaptures rest := by
  obtain ⟨a, y, hcay, haw⟩ := hshape
  have hdecomp : wrapBlock c ++ rest =
      '`' :: '`' :: '`' :: 'v' :: 'h' :: 'd' :: 'l' :: '\n' ::
        (c ++ '`' :: '`' :: '`' :: rest) := by
    show (("```vhdl\n").data ++ c ++ ("```").data) ++ rest = _
    simp
  have hk : (wrapBlock c ++ rest).length = (10 + c.length + rest.length) + 1 := by
    rw [hdecomp]
    simp
    omega
  show findFenceCaptures (wrapBlock c ++ rest).length (wrapBlock c ++ rest) = _
  rw [hk, hdecomp, findFenceCaptures, if_pos (startsTripleTick_triple _)]
  have htag : dropLangTag
      (('`' :: '`' :: '`' :: 'v' :: 'h' :: 'd' :: 'l' :: '\n' ::
        (c ++ '`' :: '`' :: '`' :: rest)).drop 3) =
      '\n' :: (c ++ '`' :: '`' :: '`' :: rest) := rfl
  rw [htag]
  have hdw : (('\n' :: (c ++ '`' :: '`' :: '`' :: rest)).dropWhile isPySpace) =
      c ++ '`' :: '`' :: '`' :: rest := by
    rw [List.dropWhile_cons, if_pos (by decide), hcay]
    rw [show (a :: y ++ ['\n']) ++ '`' :: '`' :: '`' :: rest =
      a :: ((y ++ ['\n']) ++ '`' :: '`' :: '`' :: rest) from by simp]
    rw [List.dropWhile_cons, if_neg (by simp [haw])]
  rw [hdw, splitAtFence_append_close c rest hc (by
    rw [hcay, show a :: y ++ ['\n'] = (a :: y) ++ ['\n'] from rfl]
    exact List.getLast?_concat _)]
  show c :: findFenceCaptures (10 + c.length + rest.length) rest = _
  exact congrArg (c :: ·)
    (findFenceCaptures_fuel_eq _ rest.length rest (by omega) (le_refl _))

/-- Re-wrapping normal-form contents and scanning recovers exactly the list
of contents. -/
theorem fenceCaptures_rewrap (m : List (List Char × List Char))
    (h : ∀ p ∈ m, hasTripleTick p.2 = false ∧
      ∃ a y, p.2 = a :: y ++ ['\n'] ∧ isPySpace a = false) :
    fenceCaptures (rewrapBlocks m) = m.map (·.2) := by
  induction m with
  | nil => rfl
  | cons p ps ih =>
    rw [rewrapBlocks_cons,
      fenceCaptures_wrap p.2 (rewrapBlocks ps)
        (h p (List.mem_cons_self p ps)).1 (h p (List.mem_cons_self p ps)).2,
      ih (fun q hq => h q (List.mem_cons_of_mem p hq))]
    rfl

/-! ## Insertion-ordered dict lemmas -/

theorem contains_iff_mem {l : List (List Char)} {k : List Char} :
    l.contains k = true ↔ k ∈ l := by
  simp [List.contains]

theorem dictInsert_mem {d : List (List Char × List Char)}
    {k v : List Char} {p : List Char × List Char}
    (h : p ∈ dictInsert d k v) : p ∈ d ∨ p = (k, v) := by
  induction d with
  | nil =>
    simp only [dictInsert, List.mem_singleton] at h
    exact Or.inr h
  | cons q rest ih =>
    rw [dictInsert] at h
    by_cases hq : q.1 = k
    · rw [if_pos hq] at h
      rcases List.mem_cons.mp h with rfl | hm
      · exact Or.inr (by rw [hq])
      · exact Or.inl (List.mem_cons_of_mem q hm)
    · rw [if_neg hq] at h
      rcases List.mem_cons.mp h with rfl | hm
      · exact Or.inl (List.mem_cons_self q rest)
      · rcases ih hm with hm2 | hp
        · exact Or.inl (List.mem_cons_of_mem q hm2)
        · exact Or.inr hp

theorem mem_foldl_dictInsert :
    ∀ (ps : List (List Char × List Char)) (d : List (List Char × List Char))
      (p : List Char × List Char),
    p ∈ ps.foldl (fun d q => dictInsert d q.1 q.2) d → p ∈ d ∨ p ∈ ps := by
  intro ps
  induction ps with
  | nil => intro d p h; exact Or.inl h
  | cons q qs ih =>
    intro d p h
    rw [List.foldl_cons] at h
    rcases ih (dictInsert d q.1 q.2) p h with hm | hm
    · rcases dictInsert_mem hm with hm2 | rfl
      · exact Or.inl hm2
      · exact Or.inr (by simp)
    · exact Or.inr (List.mem_cons_of_mem q hm)

theorem dictInsert_keys (d : List (List Char × List Char)) (k v : List Char) :
    (dictInsert d k v).map (·.1) =
      if k ∈ d.map (·.1) then d.map (·.1) else d.map (·.1) ++ [k] := by
  induction d with
  | nil => simp [dictInsert]
  | cons q rest ih =>
    rw [dictInsert]
    by_cases hq : q.1 = k
    · rw [if_pos hq]
      have hk : k ∈ (q :: rest).map (·.1) := by
        simp only [List.map_cons, List.mem_cons]
        exact Or.inl hq.symm
      rw [if_pos hk]
      simp [hq]
    · rw [if_neg hq]
      simp only [List.map_cons, ih]
      by_cases hk : k ∈ rest.map (·.1)
      · rw [if_pos hk, if_pos (by simp only [List.map_cons, List.mem_cons]; exact Or.inr hk)]
      · rw [if_neg hk, if_neg (by
          simp only [List.map_cons, List.mem_cons]
          rintro (h1 | h2)
          · exact hq h1.symm
          · exact hk h2)]
        simp

theorem keys_foldl_dictInsert :
    ∀ (ps : List (List Char × List Char)) (d : List (List Char × List Char))
      (seen : List (List Char)),
    (∀ k, k ∈ seen ↔ k ∈ d.map (·.1)) →
    (ps.foldl (fun d q => dictInsert d q.1 q.2) d).map (·.1) =
      d.map (·.1) ++ dedupFirstAux seen (ps.map (·.1)) := by
  intro ps
  induction ps with
  | nil => intro d seen _; simp [dedupFirstAux]
  | cons q qs ih =>
    intro d seen hseen
    rw [List.foldl_cons, List.map_cons]
    rw [show dedupFirstAux seen (q.1 :: qs.map (·.1)) =
      if seen.contains q.1 then dedupFirstAux seen (qs.map (·.1))
      else q.1 :: dedupFirstAux (q.1 :: seen) (qs.map (·.1)) from rfl]
    by_cases hk : q.1 ∈ seen
    · rw [if_pos (contains_iff_mem.mpr hk)]
      have hkd : q.1 ∈ d.map (·.1) := (hseen q.1).mp hk
      have hkeys : (dictInsert d q.1 q.2).map (·.1) = d.map (·.1) := by
        rw [dictInsert_keys, if_pos hkd]
      rw [ih (dictInsert d q.1 q.2) seen (fun k => by rw [hkeys]; exact hseen k),
        hkeys]
    · rw [if_neg (by
        intro hcontra
        exact hk (contains_iff_mem.mp hcontra))]
      have hkd : ¬ q.1 ∈ d.map (·.1) := fun hc => hk ((hseen q.1).mpr hc)
      have hkeys : (dictInsert d q.1 q.2).map (·.1) = d.map (·.1) ++ [q.1] := by
        rw [dictInsert_keys, if_neg hkd]
      rw [ih (dictInsert d q.1 q.2) (q.1 :: seen) (fun k => by
        rw [hkeys]
        constructor
        · intro hx
          rcases List.mem_cons.mp hx with rfl | hs
          · exact List.mem_append.mpr (Or.inr (List.mem_singleton.mpr rfl))
          · exact List.mem_append.mpr (Or.inl ((hseen k).mp hs))
        · intro hx
          rcases List.mem_append.mp hx with hd | hq1
          · exact List.mem_cons_of_mem _ ((hseen k).mpr hd)
          · rw [List.mem_singleton.mp hq1]
            exact List.mem_cons_self _ _), hkeys]
      simp

theorem dedupFirstAux_not_mem_seen :
    ∀ (l : List (List Char)) (seen : List (List Char)) (k : List Char),
    k ∈ dedupFirstAux seen l → ¬ k ∈ seen := by
  intro l
  induction l with
  | nil => intro seen k h; exact absurd h (by simp [dedupFirstAux])
  | cons a t ih =>
    intro seen k h
    rw [show dedupFirstAux seen (a :: t) =
      if seen.contains a then dedupFirstAux seen t
      else a :: dedupFirstAux (a :: seen) t from rfl] at h
    by_cases ha : seen.contains a = true
    · rw [if_pos ha] at h
      exact ih seen k h
    · rw [if_neg ha] at h
      rcases List.mem_cons.mp h with rfl | hm
      · intro hc
        exact ha (contains_iff_mem.mpr hc)
      · intro hc
        exact ih (a :: seen) k hm (List.mem_cons_of_mem a hc)

theorem dedupFirstAux_nodup :
    ∀ (l : List (List Char)) (seen : List (List Char)),
    (dedupFirstAux seen l).Nodup := by
  intro l
  induction l with
  | nil => intro seen; simp [dedupFirstAux]
  | cons a t ih =>
    intro seen
    rw [show dedupFirstAux seen (a :: t) =
      if seen.contains a then dedupFirstAux seen t
      else a :: dedupFirstAux (a :: seen) t from rfl]
    by_cases ha : seen.contains a = true
    · rw [if_pos ha]; exact ih seen
    · rw [if_neg ha]
      refine List.Nodup.cons ?_ (ih (a :: seen))
      intro hmem
      exact dedupFirstAux_not_mem_seen t (a :: seen) a hmem
        (List.mem_cons_self a seen)

theorem parseFileBlocks_keys (text : List Char) :
    (parseFileBlocks text).map (·.1) = dedupFirst ((blockPairs text).map (·.1)) := by
  show ((blockPairs text).foldl (fun d q => dictInsert d q.1 q.2) []).map (·.1) = _
  rw [keys_foldl_dictInsert (blockPairs text) [] [] (by simp)]
  rfl

theorem parseFileBlocks_keys_nodup (text : List Char) :
    ((parseFileBlocks text).map (·.1)).Nodup := by
  rw [parseFileBlocks_keys]
  exact dedupFirstAux_nodup _ []

theorem dictGet_dictInsert (d : List (List Char × List Char))
    (k v k' : List Char) :
    dictGet (dictInsert d k v) k' = if k' = k then some v else dictGet d k' := by
  induction d with
  | nil =>
    by_cases h : k' = k
    · simp [dictInsert, dictGet, h]
    · simp only [dictInsert, dictGet, List.find?]
      rw [show (decide (k = k')) = false from by
        simp only [decide_eq_false_iff_not]
        exact fun hc => h hc.symm]
      simp [h]
  | cons q rest ih =>
    rw [dictInsert]
    by_cases hq : q.1 = k
    · rw [if_pos hq]
      by_cases h : k' = k
      · subst h
        have h1 : dictGet ((q.1, v) :: rest) k' = some v := by
          simp [dictGet, List.find?, hq]
        rw [h1, if_pos rfl]
      · have hne : ¬ (q.1 = k') := fun hc => h (hc ▸ hq.symm ▸ rfl)
        have h1 : dictGet ((q.1, v) :: rest) k' = dictGet rest k' := by
          simp [dictGet, List.find?, hne]
        have h2 : dictGet (q :: rest) k' = dictGet rest k' := by
          simp [dictGet, List.find?, hne]
        rw [h1, if_neg h, h2]
    · rw [if_neg hq]
      by_cases hqk : q.1 = k'
      · have h1 : dictGet (q :: dictInsert rest k v) k' = some q.2 := by
          simp [dictGet, List.find?, hqk]
        have h2 : dictGet (q :: rest) k' = some q.2 := by
          simp [dictGet, List.find?, hqk]
        rw [h1, h2]
        rw [if_neg (fun hc : k' = k => hq (hqk.symm ▸ hc ▸ rfl))]
      · have h1 : dictGet (q :: dictInsert rest k v) k' =
            dictGet (dictInsert rest k v) k' := by
          simp [dictGet, List.find?, hqk]
        have h2 : dictGet (q :: rest) k' = dictGet rest k' := by
          simp [dictGet, List.find?, hqk]
        rw [h1, h2, ih]

theorem dictGet_foldl_dictInsert :
    ∀ (ps : List (List Char × List Char)) (d : List (List Char × List Char))
      (k : List Char),
    dictGet (ps.foldl (fun d q => dictInsert d q.1 q.2) d) k =
      match lastWins ps k with
      | some v => some v
      | none => dictGet d k := by
  intro ps
  induction ps with
  | nil => intro d k; rfl
  | cons q qs ih =>
    intro d k
    rw [List.foldl_cons, ih]
    rw [show lastWins (q :: qs) k =
      (match lastWins qs k with
       | some v => some v
       | none => if q.1 = k then some q.2 else none) from rfl]
    cases hl : lastWins qs k with
    | some v => rfl
    | none =>
      rw [dictGet_dictInsert]
      by_cases h : q.1 = k
      · rw [if_pos (h.symm), if_pos h]
      · rw [if_neg (fun hc : k = q.1 => h hc.symm), if_neg h]

theorem dictInsert_not_mem_append {d : List (List Char × List Char)}
    {k v : List Char} (h : ¬ k ∈ d.map (·.1)) :
    dictInsert d k v = d ++ [(k, v)] := by
  induction d with
  | nil => rfl
  | cons q rest ih =>
    have hq : ¬ (q.1 = k) := by
      intro hc
      exact h (by simp only [List.map_cons, List.mem_cons]; exact Or.inl hc.symm)
    rw [dictInsert, if_neg hq, ih (fun hc => h (by
      simp only [List.map_cons, List.mem_cons]
      exact Or.inr hc))]
    rfl

theorem foldl_dictInsert_disjoint :
    ∀ (ps : List (List Char × List Char)) (d : List (List Char × List Char)),
    (ps.map (·.1)).Nodup →
    (∀ k ∈ ps.map (·.1), ¬ k ∈ d.map (·.1)) →
    ps.foldl (fun d q => dictInsert d q.1 q.2) d = d ++ ps := by
  intro ps
  induction ps with
  | nil => intro d _ _; simp
  | cons q qs ih =>
    intro d hnd hdisj
    rw [List.foldl_cons,
      dictInsert_not_mem_append (hdisj q.1 (by simp))]
    rw [ih (d ++ [q]) (by simpa using hnd.of_cons) (by
      intro k hk
      simp only [List.map_append, List.mem_append, List.map_cons,
        List.mem_singleton, List.map_nil]
      rintro (hd | hq)
      · exact hdisj k (by simp only [List.map_cons, List.mem_cons]; exact Or.inr hk) hd
      · have hnodup := hnd
        rw [List.map_cons] at hnodup
        exact (List.nodup_cons.mp hnodup).1 (hq ▸ hk))]
    rw [List.append_assoc]
    rfl

theorem foldl_dictInsert_self {m : List (List Char × List Char)}
    (h : (m.map (·.1)).Nodup) :
    m.foldl (fun d q => dictInsert d q.1 q.2) [] = m := by
  rw [foldl_dictInsert_disjoint m [] h (by simp)]
  rfl

/-! ## Assembly: every extracted mapping entry is in normal form -/

theorem lstrip_head_not_space : ∀ {x : List Char} {a : Char} {t : List Char},
    lstrip x = a :: t → isPySpace a = false := by
  intro x
  induction x with
  | nil => intro a t h; exact absurd h (by simp [lstrip])
  | cons c r ih =>
    intro a t h
    rw [lstrip_cons] at h
    by_cases hc : isPySpace c = true
    · rw [if_pos hc] at h; exact ih h
    · rw [if_neg hc] at h
      rw [← List.head_eq_of_cons_eq h]
      simpa using hc

theorem rstrip_last_not_space : ∀ {y : List Char} {z : Char},
    (rstrip y).getLast? = some z → isPySpace z = false := by
  intro y
  induction y with
  | nil => intro z h; exact absurd h (by simp [rstrip])
  | cons c t ih =>
    intro z h
    cases hr : rstrip t with
    | nil =>
      rw [rstrip_cons_nil hr] at h
      by_cases hc : isPySpace c = true
      · rw [if_pos hc] at h
        exact absurd h (by simp)
      · rw [if_neg hc] at h
        simp only [List.getLast?_singleton, Option.some.injEq] at h
        rw [← h]
        simpa using hc
    | cons r rs =>
      rw [rstrip_cons_of_ne (by rw [hr]; simp)] at h
      rw [show (c :: rstrip t).getLast? = (rstrip t).getLast? from by
        rw [hr]; exact List.getLast?_cons_cons] at h
      exact ih h

theorem pyStrip_head_not_space {x : List Char} {a : Char} {t : List Char}
    (h : pyStrip x = a :: t) : isPySpace a = false := by
  obtain ⟨u, hu⟩ := rstrip_append_exists (lstrip x)
  have h' : rstrip (lstrip x) = a :: t := h
  have hlx : lstrip x = a :: (t ++ u) := by
    rw [← hu, h']
    rfl
  exact lstrip_head_not_space hlx

theorem pyStrip_last_not_space {x : List Char} {z : Char}
    (h : (pyStrip x).getLast? = some z) : isPySpace z = false :=
  rstrip_last_not_space h

theorem blockPairs_mem {text : List Char} {p : List Char × List Char}
    (h : p ∈ blockPairs text) :
    ∃ B ∈ fenceCaptures text, processBlock B = some p := by
  simp only [blockPairs, List.mem_filterMap] at h
  obtain ⟨B, hB, hpb⟩ := h
  exact ⟨B, hB, hpb⟩

theorem parseFileBlocks_mem {text : List Char} {p : List Char × List Char}
    (h : p ∈ parseFileBlocks text) : p ∈ blockPairs text := by
  rcases mem_foldl_dictInsert (blockPairs text) [] p h with h0 | h1
  · exact absurd h0 (by simp)
  · exact h1

/-- Every `(filename, content)` pair of the extractor's output re-parses to
itself, is fence-free, and has the shape `stripped-text + "\n"` with no
leading or trailing whitespace around the stripped text. -/
theorem parseFileBlocks_pair_NF {text n c : List Char}
    (h : (n, c) ∈ parseFileBlocks text) :
    processBlock c = some (n, c) ∧ hasTripleTick c = false ∧
    ∃ s, c = s ++ ['\n'] ∧ ¬ s = [] ∧
      (∀ a t, s = a :: t → isPySpace a = false) ∧
      (∀ z, s.getLast? = some z → isPySpace z = false) := by
  obtain ⟨B, hB, hpb⟩ := blockPairs_mem (parseFileBlocks_mem h)
  have hBt : hasTripleTick B = false := fenceCaptures_no_triple text B hB
  obtain ⟨hfh, hn, hc⟩ := processBlock_eq_some.mp hpb
  have hTne : ¬ trimLines (pySplitlines B) = [] := by
    intro hcontra
    have hth := trimLines_firstHeader (pySplitlines B)
    rw [hcontra, hfh] at hth
    exact Option.noConfusion hth
  have hsne : ¬ pyStrip (joinNL (pySplitlines B)) = [] := by
    rw [pyStrip_joinNL]
    intro hcontra
    exact hTne (joinNL_rtrimLines_nil hcontra)
  refine ⟨processBlock_reNF hpb, processBlock_no_triple hBt hpb,
    pyStrip (joinNL (pySplitlines B)), hc, hsne, ?_, ?_⟩
  · intro a t hs
    exact pyStrip_head_not_space hs
  · intro z hz
    exact pyStrip_last_not_space hz

theorem parseFileBlocks_pair_shape {text n c : List Char}
    (h : (n, c) ∈ parseFileBlocks text) :
    hasTripleTick c = false ∧
    ∃ a y, c = a :: y ++ ['\n'] ∧ isPySpace a = false := by
  obtain ⟨-, ht, s, hc, hsne, hhead, -⟩ := parseFileBlocks_pair_NF h
  refine ⟨ht, ?_⟩
  cases hs : s with
  | nil => exact absurd hs hsne
  | cons a y =>
    exact ⟨a, y, by rw [hc, hs], hhead a y hs⟩

theorem filterMap_processBlock_map_values
    {m : List (List Char × List Char)}
    (h : ∀ p ∈ m, processBlock p.2 = some p) :
    (m.map (·.2)).filterMap processBlock = m := by
  induction m with
  | nil => rfl
  | cons p ps ih =>
    rw [List.map_cons, List.filterMap_cons, h p (List.mem_cons_self p ps),
      ih (fun q hq => h q (List.mem_cons_of_mem p hq))]

/-! # Claim theorems -/

/-- C8.  The File-Block Extractor is idempotent under re-wrapping: for every
filename-to-content mapping it produces, wrapping each entry's content back
into the same fenced code-block format and re-running the extractor on the
concatenation reproduces exactly the same filename-to-content mapping. -/
theorem C8_extractor_idempotent_under_rewrap (text : List Char) :
    parseFileBlocks (rewrapBlocks (parseFileBlocks text)) =
      parseFileBlocks text := by
  have hNFall : ∀ p ∈ parseFileBlocks text, processBlock p.2 = some p := by
    intro p hp
    obtain ⟨p1, p2⟩ := p
    exact (parseFileBlocks_pair_NF hp).1
  have hshape : ∀ p ∈ parseFileBlocks text, hasTripleTick p.2 = false ∧
      ∃ a y, p.2 = a :: y ++ ['\n'] ∧ isPySpace a = false := by
    intro p hp
    obtain ⟨p1, p2⟩ := p
    exact parseFileBlocks_pair_shape hp
  have hcap : fenceCaptures (rewrapBlocks (parseFileBlocks text)) =
      (parseFileBlocks text).map (·.2) :=
    fenceCaptures_rewrap (parseFileBlocks text) hshape
  have hbp : blockPairs (rewrapBlocks (parseFileBlocks text)) =
      parseFileBlocks text := by
    show (fenceCaptures (rewrapBlocks (parseFileBlocks text))).filterMap
      processBlock = _
    rw [hcap]
    exact filterMap_processBlock_map_values hNFall
  show (blockPairs (rewrapBlocks (parseFileBlocks text))).foldl
    (fun d p => dictInsert d p.1 p.2) [] = _
  rw [hbp]
  exact foldl_dictInsert_self (parseFileBlocks_keys_nodup text)

/-- C7.  When two or more fenced regions declare the same filename, the
extractor's mapping binds that filename to the last such region's content
(`lastWins`), while iteration order follows each key's first appearance
(`dedupFirst` over the region filenames in textual order). -/
theorem C7_duplicate_filename_last_wins_first_position (text n : List Char)
    (hdup : 2 ≤ ((blockPairs text).filter (fun p => p.1 = n)).length) :
    dictGet (parseFileBlocks text) n = lastWins (blockPairs text) n ∧
    (parseFileBlocks text).map (·.1) =
      dedupFirst ((blockPairs text).map (·.1)) := by
  constructor
  · have hfold := dictGet_foldl_dictInsert (blockPairs text) [] n
    have : dictGet (parseFileBlocks text) n =
        match lastWins (blockPairs text) n with
        | some v => some v
        | none => dictGet [] n := hfold
    rw [this]
    cases lastWins (blockPairs text) n with
    | some v => rfl
    | none => rfl
  · exact parseFileBlocks_keys text

/-- C10.  Every value of the extractor's output mapping is non-empty, ends
with exactly one trailing newline, has no other leading or trailing
whitespace, and still contains a line matching the filename-header pattern. -/
theorem C10_extracted_content_invariants (text n c : List Char)
    (h : (n, c) ∈ parseFileBlocks text) :
    ¬ c = [] ∧
    (∃ s, c = s ++ ['\n'] ∧ ¬ s = [] ∧
      (∀ a t, s = a :: t → isPySpace a = false) ∧
      (∀ z, s.getLast? = some z → isPySpace z = false)) ∧
    ∃ line ∈ pySplitlines c, (headerFilename (pyStrip line)).isSome := by
  obtain ⟨hre, -, s, hc, hsne, hhead, hlast⟩ := parseFileBlocks_pair_NF h
  refine ⟨by rw [hc]; simp, ⟨s, hc, hsne, hhead, hlast⟩, ?_⟩
  obtain ⟨hfh, -, -⟩ := processBlock_eq_some.mp hre
  obtain ⟨line, hline, hsome⟩ := List.exists_of_findSome?_eq_some hfh
  exact ⟨line, hline, by rw [hsome]; rfl⟩

/-- C10 witness input: a single well-formed block. -/
theorem C10_extracted_content_invariants_witness :
    ((("a.vhd").data, ("-- File: a.vhd\nx\n").data) ∈
      parseFileBlocks (("```vhdl\n-- File: a.vhd\nx\n```").data)) ∧
    (¬ ("-- File: a.vhd\nx\n").data = [] ∧
      (∃ s, ("-- File: a.vhd\nx\n").data = s ++ ['\n'] ∧ ¬ s = [] ∧
        (∀ a t, s = a :: t → isPySpace a = false) ∧
        (∀ z, s.getLast? = some z → isPySpace z = false)) ∧
      ∃ line ∈ pySplitlines (("-- File: a.vhd\nx\n").data),
        (headerFilename (pyStrip line)).isSome) :=
  ⟨by decide,
   C10_extracted_content_invariants (("```vhdl\n-- File: a.vhd\nx\n```").data)
     (("a.vhd").data) (("-- File: a.vhd\nx\n").data) (by decide)⟩

/-- C7 witness input: two `vhdl` fences both declaring `a.vhd`. -/
theorem C7_duplicate_filename_witness :
    (2 ≤ ((blockPairs c7Text).filter (fun p => p.1 = ("a.vhd").data)).length) ∧
    (dictGet (parseFileBlocks c7Text) (("a.vhd").data) =
        lastWins (blockPairs c7Text) (("a.vhd").data) ∧
      (parseFileBlocks c7Text).map (·.1) =
        dedupFirst ((blockPairs c7Text).map (·.1))) :=
  ⟨by decide,
   C7_duplicate_filename_last_wins_first_position c7Text (("a.vhd").data)
     (by decide)⟩

/-- C1 (code-bug evidence).  For the prefix-extension update sequence
`"ab"`, `"abc"` at reasoning index 0, `_process_llm_chunk` re-emits the full
text each time: the concatenated `("think", _)` stream is `"ababc"`, which
repeats the already-seen prefix and differs from the final text `"abc"`. -/
theorem C1_process_llm_chunk_reemits_prefix :
    thinkConcat (processChunks c1Chunks 0) = ("ababc").data ∧
    ¬ thinkConcat (processChunks c1Chunks 0) = ("abc").data := by
  exact ⟨by decide, by decide⟩

/-- C2 counterexample.  In scenario A the materializer writes, for
`top.vhd`, the block body *including* the `-- File:` header line
(`_parse_file_blocks` retains every line of the region), so the on-disk
content is not `"entity top is end top;\n"`. -/
theorem C2_counterexample_header_line_retained :
    dictGet (writeFromAgentResponse c2Originals c2Text).dirContents
        (("top.vhd").data) = some c2WrittenContent ∧
    ¬ c2WrittenContent = ("entity top is end top;\n").data := by
  exact ⟨by decide, by decide⟩

/-- C2 (amended).  For original files `pkg.vhd`, `top.vhd` (any contents)
and the scenario-A response, the materializer returns
`changed_files = ["top.vhd"]`, `all_paths = ["pkg.vhd", "top.vhd"]`, leaves
the copy of `pkg.vhd` untouched, and writes for `top.vhd` exactly the block
body with its header line retained and one trailing newline. -/
theorem C2_amended_materializer_scenario_A (pkgC topC : List Char) :
    (writeFromAgentResponse
        [(("pkg.vhd").data, some pkgC), (("top.vhd").data, some topC)]
        c2Text).result =
      .ok { allPaths := [("pkg.vhd").data, ("top.vhd").data]
            changedFiles := [("top.vhd").data] } ∧
    dictGet (writeFromAgentResponse
        [(("pkg.vhd").data, some pkgC), (("top.vhd").data, some topC)]
        c2Text).dirContents (("pkg.vhd").data) = some pkgC ∧
    dictGet (writeFromAgentResponse
        [(("pkg.vhd").data, some pkgC), (("top.vhd").data, some topC)]
        c2Text).dirContents (("top.vhd").data) = some c2WrittenContent := by
  exact ⟨rfl, rfl, rfl⟩

/-- C3 counterexample.  On the empty file list the stub
`ResourceUtilizationRunner.run` returns its dummy report instead of raising,
and `write_from_agent_response` performs I/O first (the run directory is
created) and succeeds without any input error when the response contains a
file block. -/
theorem C3_counterexample_no_empty_input_error :
    stubResourceRun (("GenericFPGA").data) [] (("top").data) =
      { tool := ("HDL_TOOL_STUB").data, target := ("GenericFPGA").data,
        lut := some 1234, ff := some 2345, dsp := some 10, bram := some 3,
        uram := none, fmaxMhz := some 180 } ∧
    (writeFromAgentResponse [] c2Text).result =
      .ok { allPaths := [("top.vhd").data]
            changedFiles := [("top.vhd").data] } ∧
    (writeFromAgentResponse [] c2Text).effects.head? =
      some FsEffect.mkdirRunDir := by
  exact ⟨rfl, rfl, rfl⟩

/-- C3 (amended).  On the empty file-path list: the pipeline's entry stage
and the real runner's `run_for_files` fail with an input error before any
I/O or external-process call (the entry stage's result does not depend on
the collaborators, `run_for_files` produces an empty effect trace); but the
stub runner's `run` returns its fixed dummy report without error for every
input, and the materializer performs no emptiness check at all — it creates
the run directory first and succeeds whenever the response contains a file
block. -/
theorem C3_amended_empty_input_behaviour :
    (∀ (rrun : List (List Char) → List Char →
        Except (List Char) StubResourceReport)
       (rf : List Char → Option (List Char)) (q : List Char)
       (ch : List PMessage) (sp : List Char),
      resourceInitNode rrun rf (initFullGraphState [] q ch sp) =
        .error (("resource_init_node: no HDL paths provided").data)) ∧
    (∀ (w : VivadoWorld) (top : List Char),
      runForFiles w [] top =
        (.error (("No HDL files provided to ResourceUtilizationRunner").data),
         [])) ∧
    (∀ (target fps top : List Char) (more : List (List Char)),
      stubResourceRun target (fps :: more) top =
        stubResourceRun target [] top) ∧
    (stubResourceRun (("GenericFPGA").data) [] (("top").data)).tool =
      ("HDL_TOOL_STUB").data ∧
    (∀ text : List Char,
      (writeFromAgentResponse [] text).effects.head? =
        some FsEffect.mkdirRunDir) ∧
    (writeFromAgentResponse [] c2Text).result =
      .ok { allPaths := [("top.vhd").data]
            changedFiles := [("top.vhd").data] } := by
  refine ⟨fun rrun rf q ch sp => rfl, fun w top => ?_, fun _ _ _ _ => rfl,
    rfl, fun text => ?_, rfl⟩
  · rfl
  · unfold writeFromAgentResponse
    by_cases hb : (parseFileBlocks text).isEmpty = true
    · rw [if_pos hb]
      rfl
    · rw [if_neg hb]
      rfl

/-- C4.  Whenever file-block extraction yields an empty mapping, the
materializer raises the documented "no optimized HDL file blocks found"
error with the exact expected-format message, writes no optimized file (the
run directory holds exactly the copied originals), and the
`apply_optimized_hdl` stage propagates the error, which aborts the rest of
the pipeline. -/
theorem C4_no_blocks_fatal (text : List Char)
    (h : parseFileBlocks text = []) :
    (∀ originals : List (List Char × Option (List Char)),
      (writeFromAgentResponse originals text).result = .error noBlocksMsg ∧
      (writeFromAgentResponse originals text).dirContents =
        (copiedFiles originals).foldl (fun d p => dictInsert d p.1 p.2) [] ∧
      ∀ nm ct, ¬ FsEffect.writeFile nm ct ∈
        (writeFromAgentResponse originals text).effects) ∧
    (∀ (rf : List Char → Option (List Char)) (s : PState),
      ¬ s.hdl_paths = [] → (∃ tn, s.top_name = some tn) →
      s.agent_response = some text →
      applyOptimizedHdlNode rf s = .error noBlocksMsg) ∧
    ∀ (d : PipelineDeps) (s0 : PState) (e : List Char),
      runFirstThree d s0 = .error e → runPipeline d s0 = .error e := by
  have hwriter : ∀ originals : List (List Char × Option (List Char)),
      writeFromAgentResponse originals text =
        { result := .error noBlocksMsg
          effects := FsEffect.mkdirRunDir ::
            (copiedFiles originals).map (fun p => FsEffect.copyFile p.1 p.2)
          dirContents :=
            (copiedFiles originals).foldl (fun d p => dictInsert d p.1 p.2) [] } := by
    intro originals
    unfold writeFromAgentResponse
    rw [if_pos (by rw [h]; rfl)]
  refine ⟨fun originals => ⟨by rw [hwriter], by rw [hwriter], ?_⟩, ?_, ?_⟩
  · intro nm ct hmem
    rw [hwriter] at hmem
    rcases List.mem_cons.mp hmem with hcontra | hcontra
    · exact FsEffect.noConfusion hcontra
    · obtain ⟨p, -, hp⟩ := List.mem_map.mp hcontra
      exact FsEffect.noConfusion hp
  · intro rf s hpaths htop hresp
    obtain ⟨tn, htn⟩ := htop
    cases hsp : s.hdl_paths with
    | nil => exact absurd hsp hpaths
    | cons p rest =>
      simp only [applyOptimizedHdlNode, hsp, htn, hresp, hwriter]
  · intro d s0 e hfirst
    unfold runPipeline
    rw [hfirst]
    rfl

/-- C4 witness: a blockless response against the scenario-A originals. -/
theorem C4_no_blocks_fatal_witness :
    (parseFileBlocks (("There is nothing to change.").data) = []) ∧
    ((writeFromAgentResponse c2Originals
        (("There is nothing to change.").data)).result =
      .error noBlocksMsg ∧
     (writeFromAgentResponse c2Originals
        (("There is nothing to change.").data)).dirContents =
       (copiedFiles c2Originals).foldl (fun d p => dictInsert d p.1 p.2) [] ∧
     ∀ nm ct, ¬ FsEffect.writeFile nm ct ∈
       (writeFromAgentResponse c2Originals
         (("There is nothing to change.").data)).effects) :=
  ⟨by decide,
   (C4_no_blocks_fatal (("There is nothing to change.").data) (by decide)).1
     c2Originals⟩

/-- C5 (code-bug evidence).  `_extract_used` itself behaves as specified:
on the scenario-C report it extracts `6528` for the `Slice LUTs*` row
(underscore stripped) and yields `none`, never `0`, for the absent `URAM`
row; but `parse` can never return a report, because it passes the keyword
arguments `ff`, `uram`, `fmax_mhz` to a `ResourceReport` dataclass that
does not declare them, raising `TypeError` on every input. -/
theorem C5_extract_used_ok_but_parse_raises :
    extractUsed (pySplitlines c5Report) (("Slice LUTs*").data) = some 6528 ∧
    extractUsed (pySplitlines c5Report) (("URAM").data) = none ∧
    ¬ extractUsed (pySplitlines c5Report) (("URAM").data) = some 0 ∧
    vivadoParserParse c5Report =
      .error (("TypeError: ResourceReport.__init__() got an unexpected keyword argument ").data ++
        Char.ofNat 39 :: ("ff").data ++ [Char.ofNat 39]) ∧
    ∀ text : List Char, ∀ r : AppResourceReport,
      ¬ vivadoParserParse text = .ok r := by
  refine ⟨by decide, by decide, by decide, rfl, ?_⟩
  intro text r hr
  unfold vivadoParserParse at hr
  rw [show vivadoParseKwargs.find?
      (fun k => !appResourceReportFields.contains k) = some (("ff").data)
    from by decide] at hr
  exact Except.noConfusion hr

theorem astreamRunFlow_some (ps : List (List Char)) (ex : List Char → Bool) :
    astreamRunFlow (some ps) ex =
      if ps.isEmpty then AgentFlow.noFiles
      else if (ps.filter ex).isEmpty then AgentFlow.missingFiles ps
      else AgentFlow.fullGraph (ps.filter ex) := rfl

/-- C6.  `astream_run` flow selection: an absent or empty path list selects
the no-files short-circuit flow (the pipeline is never entered), a non-empty
list none of whose paths exist selects the missing-files short-circuit flow,
and otherwise the full five-stage pipeline flow runs on exactly the subset
of paths that exist. -/
theorem C6_flow_selection (ps : List (List Char)) (ex : List Char → Bool) :
    astreamRunFlow none ex = AgentFlow.noFiles ∧
    astreamRunFlow (some []) ex = AgentFlow.noFiles ∧
    (¬ ps = [] → ps.filter ex = [] →
      astreamRunFlow (some ps) ex = AgentFlow.missingFiles ps) ∧
    (¬ ps.filter ex = [] →
      astreamRunFlow (some ps) ex = AgentFlow.fullGraph (ps.filter ex)) := by
  refine ⟨rfl, rfl, ?_, ?_⟩
  · intro hne hmiss
    rw [astreamRunFlow_some,
      if_neg (by simpa [List.isEmpty_iff] using hne),
      if_pos (by simpa [List.isEmpty_iff] using hmiss)]
  · intro hex
    have hne : ¬ ps = [] := by
      intro hcontra
      rw [hcontra] at hex
      exact hex rfl
    rw [astreamRunFlow_some,
      if_neg (by simpa [List.isEmpty_iff] using hne),
      if_neg (by simpa [List.isEmpty_iff] using hex)]

/-- C6 witness: one existing and one missing path for each branch. -/
theorem C6_flow_selection_witness :
    (¬ ([("a.v").data] : List (List Char)) = [] ∧
      ([("a.v").data] : List (List Char)).filter (fun _ => false) = []) ∧
    astreamRunFlow (some [("a.v").data]) (fun _ => false) =
      AgentFlow.missingFiles [("a.v").data] :=
  ⟨⟨by decide, by decide⟩,
   (C6_flow_selection [("a.v").data] (fun _ => false)).2.2.1 (by decide)
     (by decide)⟩

theorem except_bind_ok {ε α β : Type} (a : α) (f : α → Except ε β) :
    (Except.ok a : Except ε α).bind f = f a := rfl

theorem except_bind_error {ε α β : Type} (e : ε) (f : α → Except ε β) :
    (Except.error e : Except ε α).bind f = Except.error e := rfl

theorem accAllPaths_cons (acc : List (List Char))
    (b : List Char × List Char) (bs : List (List Char × List Char)) :
    accAllPaths acc (b :: bs) =
      accAllPaths (if b.1 ∈ acc then acc else acc ++ [b.1]) bs := rfl

theorem accAllPaths_length_le (blocks : List (List Char × List Char)) :
    ∀ acc : List (List Char), acc.length ≤ (accAllPaths acc blocks).length := by
  induction blocks with
  | nil => intro acc; exact le_refl _
  | cons b bs ih =>
    intro acc
    rw [accAllPaths_cons]
    refine le_trans ?_ (ih _)
    by_cases hb : b.1 ∈ acc
    · rw [if_pos hb]
    · rw [if_neg hb, List.length_append]
      exact Nat.le_add_right _ _

theorem accAllPaths_ne_nil (blocks : List (List Char × List Char))
    (acc : List (List Char)) (h : acc = [] → ¬ blocks = []) :
    ¬ accAllPaths acc blocks = [] := by
  cases acc with
  | cons a as =>
    have hle := accAllPaths_length_le blocks (a :: as)
    intro hnil
    rw [hnil] at hle
    exact absurd hle (by simp)
  | nil =>
    cases blocks with
    | nil => exact absurd rfl (h rfl)
    | cons b bs =>
      rw [accAllPaths_cons]
      rw [if_neg (by simp), List.nil_append]
      have hle := accAllPaths_length_le bs [b.1]
      intro hnil
      rw [hnil] at hle
      exact absurd hle (by simp)

theorem writeFromAgentResponse_ok_allPaths_ne_nil
    (originals : List (List Char × Option (List Char))) (text : List Char)
    (r : WriterResult)
    (h : (writeFromAgentResponse originals text).result = .ok r) :
    ¬ r.allPaths = [] := by
  unfold writeFromAgentResponse at h
  by_cases hb : (parseFileBlocks text).isEmpty = true
  · rw [if_pos hb] at h
    exact Except.noConfusion h
  · rw [if_neg hb] at h
    cases h
    exact accAllPaths_ne_nil _ _
      (fun _ hnil => hb (by rw [hnil]; rfl))

theorem applyOptimizedHdlNode_ok_optimized
    (rf : List Char → Option (List Char)) (s s2 : PState)
    (h : applyOptimizedHdlNode rf s = .ok s2) :
    ∃ l, s2.optimized_hdl_paths = some l ∧ ¬ l = [] := by
  unfold applyOptimizedHdlNode at h
  split at h
  · exact Except.noConfusion h
  · split at h
    · exact Except.noConfusion h
    · split at h
      · exact Except.noConfusion h
      · split at h
        · exact Except.noConfusion h
        · rename_i r heq
          cases h
          exact ⟨r.allPaths, rfl,
            writeFromAgentResponse_ok_allPaths_ne_nil _ _ _ heq⟩

theorem compileCheckNode_ok_preserves
    (cr : List (List Char) → List Char → Bool × Option (List Char))
    (s s4 : PState) (h : compileCheckNode cr s = .ok s4) :
    s4.optimized_hdl_paths = s.optimized_hdl_paths := by
  simp only [compileCheckNode] at h
  split at h
  · exact Except.noConfusion h
  · split at h
    · exact Except.noConfusion h
    · cases h
      rfl

/-- C9.  Downstream fall-back unreachability: whenever the three upstream
stages `resource_init → agent → apply_optimized_hdl` have completed without
raising, the state holds a non-empty `optimized_hdl_paths`, so
`_select_paths_for_downstream` returns the optimized set (never the original
`hdl_paths` fall-back) both at `compile_check` and, after `compile_check`
succeeds, at `resource_final`. -/
theorem C9_downstream_always_optimized (d : PipelineDeps) (s0 s3 : PState)
    (h3 : runFirstThree d s0 = .ok s3) :
    (∃ l, s3.optimized_hdl_paths = some l ∧ ¬ l = [] ∧
        selectPathsForDownstream s3 = l) ∧
    (∀ s4, compileCheckNode d.compileRun s3 = .ok s4 →
      ∃ l, s4.optimized_hdl_paths = some l ∧ ¬ l = [] ∧
        selectPathsForDownstream s4 = l) := by
  have hopt : ∃ l, s3.optimized_hdl_paths = some l ∧ ¬ l = [] := by
    unfold runFirstThree at h3
    cases h1 : resourceInitNode d.resourceRun d.readFile s0 with
    | error e =>
      rw [h1, except_bind_error] at h3
      exact Except.noConfusion h3
    | ok s1 =>
      rw [h1, except_bind_ok] at h3
      cases h2 : agentNode d.llmResponse s1 with
      | error e =>
        rw [h2, except_bind_error] at h3
        exact Except.noConfusion h3
      | ok s2 =>
        rw [h2, except_bind_ok] at h3
        exact applyOptimizedHdlNode_ok_optimized d.readFile s2 s3 h3
  obtain ⟨l, hl, hlne⟩ := hopt
  refine ⟨⟨l, hl, hlne, ?_⟩, ?_⟩
  · unfold selectPathsForDownstream
    rw [hl]
  · intro s4 h4
    have hpres := compileCheckNode_ok_preserves d.compileRun s3 s4 h4
    refine ⟨l, ?_, hlne, ?_⟩
    · rw [hpres, hl]
    · unfold selectPathsForDownstream
      rw [hpres, hl]

/-- C9 witness: on a concrete one-file state the three upstream stages
succeed and reach `compile_check` with a non-empty optimized path set. -/
theorem C9_downstream_always_optimized_witness :
    runFirstThree witnessDeps c9Init = .ok c9S3 ∧
    (∃ l, c9S3.optimized_hdl_paths = some l ∧ ¬ l = [] ∧
        selectPathsForDownstream c9S3 = l) :=
  ⟨rfl, (C9_downstream_always_optimized witnessDeps c9Init c9S3 rfl).1⟩

end HDLLoop
